import Mathlib

/-!
Verification of the parquet-file storage layer and catalog rebuild engine of
the influxdb_iox repository (files `parquet_file/src/storage.rs` and
`parquet_file/src/rebuild.rs`), against its natural-language specification.

The Rust code is shallowly embedded: object-store paths become explicit
lists of directory segments plus an optional file name, machine integers
become `Nat` with explicit bounds where overflow matters, and fallible
operations return `Except`.  Parts of the repository that are referenced by
the two source files but whose code is not available (the preserved catalog
in `catalog.rs`, the metadata codec in `metadata.rs`, and the external
object-store / parquet libraries) are modelled from the specification; each
such definition carries a doc comment starting with `Modelled from the
spec:`.
-/

/-! ### Decimal rendering and parsing of natural numbers

`natChars n` renders `n` in canonical decimal, mirroring Rust's
`u32::to_string()` / `u64`-`Display` (most significant digit first, no sign,
no padding, `0` rendered as `"0"`).  Fuel-based structural recursion keeps
the definition kernel-reducible. -/

def natCharsAux : Nat → Nat → List Char → List Char
  | 0, _, acc => acc
  | fuel + 1, n, acc =>
    if n < 10 then Nat.digitChar n :: acc
    else natCharsAux fuel (n / 10) (Nat.digitChar (n % 10) :: acc)

def natChars (n : Nat) : List Char := natCharsAux (n + 1) n []

def natToString (n : Nat) : String := String.mk (natChars n)

/-- The numeric value of an ASCII digit character, as Rust's integer parser
computes it. -/
def charDigitVal (c : Char) : Nat := c.toNat - 48

/-- Model of Rust's `str::parse::<u32>()`: an optional leading `+`, then one
or more ASCII digits, rejecting the empty string, non-digit characters and
values that overflow `u32`. -/
def parseU32Chars (l : List Char) : Option Nat :=
  let digits := if l.head? = some '+' then l.tail else l
  if digits = [] then none
  else if digits.all Char.isDigit then
    let v := digits.foldl (fun a c => 10 * a + charDigitVal c) 0
    if v < 4294967296 then some v else none
  else none

/-- Model of Rust's `str::split(sep)` on a character list: splitting on every
occurrence of the separator, keeping empty pieces (so `""` splits to `[""]`
and `".x"` splits to `["", "x"]`). -/
def splitChar (sep : Char) : List Char → List (List Char)
  | [] => [[]]
  | c :: rest =>
    if c = sep then [] :: splitChar sep rest
    else
      match splitChar sep rest with
      | h :: t => (c :: h) :: t
      | [] => [[c]]

/-! ### Round-trip lemmas for decimal rendering -/

theorem natCharsAux_eq_digits (fuel : Nat) :
    ∀ n acc, 0 < n → n ≤ fuel →
      natCharsAux (fuel + 1) n acc =
        ((Nat.digits 10 n).map Nat.digitChar).reverse ++ acc := by
  induction fuel with
  | zero => intro n acc h1 h2; omega
  | succ fuel ih =>
    intro n acc h1 h2
    have hunfold : natCharsAux (fuel + 1 + 1) n acc =
        if n < 10 then Nat.digitChar n :: acc
        else natCharsAux (fuel + 1) (n / 10) (Nat.digitChar (n % 10) :: acc) :=
      rfl
    rw [hunfold]
    by_cases hn : n < 10
    · rw [if_pos hn]
      rw [Nat.digits_def' (by norm_num : (1:Nat) < 10) h1]
      rw [Nat.div_eq_of_lt hn, Nat.digits_zero, Nat.mod_eq_of_lt hn]
      simp
    · rw [if_neg hn]
      have hd : 0 < n / 10 := Nat.div_pos (Nat.le_of_not_lt hn) (by norm_num)
      have hlt : n / 10 < n := Nat.div_lt_self h1 (by norm_num : (1:Nat) < 10)
      have hdle : n / 10 ≤ fuel := by omega
      rw [ih (n / 10) _ hd hdle]
      rw [Nat.digits_def' (by norm_num : (1:Nat) < 10) h1]
      simp

theorem natChars_eq_digits {n : Nat} (h : 0 < n) :
    natChars n = ((Nat.digits 10 n).map Nat.digitChar).reverse := by
  have := natCharsAux_eq_digits n n [] h (Nat.le_refl n)
  simpa [natChars] using this

theorem digitChar_isDigit {d : Nat} (h : d < 10) :
    (Nat.digitChar d).isDigit = true := by
  interval_cases d <;> decide

theorem charDigitVal_digitChar {d : Nat} (h : d < 10) :
    charDigitVal (Nat.digitChar d) = d := by
  interval_cases d <;> decide

theorem natChars_all_digits (n : Nat) :
    (natChars n).all Char.isDigit = true := by
  by_cases h : 0 < n
  · rw [natChars_eq_digits h, List.all_eq_true]
    intro c hc
    rw [List.mem_reverse, List.mem_map] at hc
    obtain ⟨d, hd, rfl⟩ := hc
    exact digitChar_isDigit (Nat.digits_lt_base (by norm_num) hd)
  · have hz : n = 0 := by omega
    subst hz; decide

theorem foldl_digits_reverse (ds : List Nat) :
    ∀ a, (∀ d ∈ ds, d < 10) →
      ((ds.map Nat.digitChar).reverse.foldl
          (fun a c => 10 * a + charDigitVal c) a) =
        a * 10 ^ ds.length + Nat.ofDigits 10 ds := by
  induction ds with
  | nil => intro a _; simp
  | cons d ds ih =>
    intro a h
    have hd : d < 10 := h d (List.mem_cons_self d ds)
    simp only [List.map_cons, List.reverse_cons, List.foldl_append,
      List.foldl_cons, List.foldl_nil, List.length_cons]
    rw [ih a (fun x hx => h x (List.mem_cons_of_mem d hx))]
    rw [charDigitVal_digitChar hd, Nat.ofDigits_cons]
    ring

theorem foldl_natChars (n : Nat) :
    (natChars n).foldl (fun a c => 10 * a + charDigitVal c) 0 = n := by
  by_cases h : 0 < n
  · rw [natChars_eq_digits h,
      foldl_digits_reverse _ 0 (fun d hd => Nat.digits_lt_base (by norm_num) hd)]
    simp [Nat.ofDigits_digits]
  · have hz : n = 0 := by omega
    subst hz; decide

theorem natChars_ne_nil (n : Nat) : natChars n ≠ [] := by
  by_cases h : 0 < n
  · intro hcon
    have h2 := foldl_natChars n
    rw [hcon] at h2
    simp only [List.foldl_nil] at h2
    omega
  · have hz : n = 0 := by omega
    subst hz; decide

theorem natChars_head_ne_plus (n : Nat) :
    (natChars n).head? ≠ some '+' := by
  cases hc : natChars n with
  | nil => simp
  | cons c rest =>
    intro hcon
    have hc2 : c = '+' := by simpa using hcon
    subst hc2
    have hall := natChars_all_digits n
    rw [hc] at hall
    have hplus : ('+' : Char).isDigit = false := by decide
    rw [List.all_cons, hplus] at hall
    simp at hall

theorem parseU32Chars_natChars {n : Nat} (h : n < 4294967296) :
    parseU32Chars (natChars n) = some n := by
  unfold parseU32Chars
  rw [if_neg (natChars_head_ne_plus n)]
  rw [if_neg (natChars_ne_nil n)]
  rw [if_pos (natChars_all_digits n)]
  rw [foldl_natChars]
  rw [if_pos h]

/-! ### Lemmas about `splitChar` -/

theorem splitChar_cons_sep (sep : Char) (rest : List Char) :
    splitChar sep (sep :: rest) = [] :: splitChar sep rest := by
  show (if sep = sep then [] :: splitChar sep rest
    else match splitChar sep rest with
      | h :: t => (sep :: h) :: t
      | [] => [[sep]]) = [] :: splitChar sep rest
  rw [if_pos rfl]

theorem splitChar_cons_ne {sep c : Char} (rest : List Char) (hc : c ≠ sep) :
    splitChar sep (c :: rest) = match splitChar sep rest with
      | h :: t => (c :: h) :: t
      | [] => [[c]] := by
  show (if c = sep then [] :: splitChar sep rest
    else match splitChar sep rest with
      | h :: t => (c :: h) :: t
      | [] => [[c]]) = _
  rw [if_neg hc]

theorem splitChar_ne_nil (sep : Char) (l : List Char) :
    splitChar sep l ≠ [] := by
  induction l with
  | nil => simp [splitChar]
  | cons c rest ih =>
    by_cases hc : c = sep
    · rw [hc, splitChar_cons_sep]; simp
    · rw [splitChar_cons_ne rest hc]
      cases hr : splitChar sep rest with
      | nil => exact absurd hr ih
      | cons hh tt => simp

theorem splitChar_not_mem {sep : Char} {l : List Char} (h : sep ∉ l) :
    splitChar sep l = [l] := by
  induction l with
  | nil => rfl
  | cons c rest ih =>
    have hc : c ≠ sep := fun hcon => h (hcon ▸ List.mem_cons_self c rest)
    have hrest : sep ∉ rest := fun hcon => h (List.mem_cons_of_mem c hcon)
    rw [splitChar_cons_ne rest hc, ih hrest]

theorem splitChar_append_sep {sep : Char} {a : List Char} (b : List Char)
    (h : sep ∉ a) :
    splitChar sep (a ++ sep :: b) = a :: splitChar sep b := by
  induction a with
  | nil =>
    simp only [List.nil_append]
    exact splitChar_cons_sep sep b
  | cons c rest ih =>
    have hc : c ≠ sep := fun hcon => h (hcon ▸ List.mem_cons_self c rest)
    have hrest : sep ∉ rest := fun hcon => h (List.mem_cons_of_mem c hcon)
    simp only [List.cons_append]
    rw [splitChar_cons_ne _ hc, ih hrest]

theorem splitChar_length (sep : Char) (l : List Char) :
    (splitChar sep l).length = l.count sep + 1 := by
  induction l with
  | nil => simp [splitChar]
  | cons c rest ih =>
    by_cases hc : c = sep
    · rw [hc, splitChar_cons_sep]
      simp only [List.length_cons, ih, List.count_cons]
      simp
    · rw [splitChar_cons_ne rest hc]
      cases hr : splitChar sep rest with
      | nil => exact absurd hr (splitChar_ne_nil sep rest)
      | cons hh tt =>
        rw [hr] at ih
        simp only [List.length_cons] at ih ⊢
        rw [List.count_cons]
        have hbe : (c == sep) = false := beq_eq_false_iff_ne.mpr hc
        rw [hbe, if_neg (show ¬(false = true) by decide)]
        omega

theorem splitChar_two_inv {sep : Char} {l : List Char} :
    ∀ {a b : List Char}, splitChar sep l = [a, b] →
      l = a ++ sep :: b ∧ sep ∉ a ∧ sep ∉ b := by
  induction l with
  | nil =>
    intro a b h
    have h2 : ([[]] : List (List Char)) = [a, b] := h
    injection h2 with hA hB
    simp at hB
  | cons c rest ih =>
    intro a b h
    by_cases hc : c = sep
    · rw [hc, splitChar_cons_sep] at h
      have h1 : ([] : List Char) = a := by injection h
      have h2 : splitChar sep rest = [b] := by
        have := h
        injection this
      have hmem : sep ∉ rest := by
        intro hsm
        have hlen := splitChar_length sep rest
        rw [h2] at hlen
        simp only [List.length_singleton] at hlen
        have hz : rest.count sep = 0 := by omega
        rw [List.count_eq_zero] at hz
        exact hz hsm
      have heq := splitChar_not_mem hmem
      rw [h2] at heq
      have h3 : b = rest := by simpa using heq
      refine ⟨?_, ?_, ?_⟩
      · rw [← h1, h3, hc]; rfl
      · rw [← h1]; simp
      · rw [h3]; exact hmem
    · rw [splitChar_cons_ne rest hc] at h
      cases hr : splitChar sep rest with
      | nil => exact absurd hr (splitChar_ne_nil sep rest)
      | cons hh tt =>
        simp only [hr] at h
        have h1 : c :: hh = a := by injection h
        have h2 : tt = [b] := by
          have := h
          injection this
        have hih := ih (a := hh) (b := b) (by rw [hr, h2])
        obtain ⟨he, hna, hnb⟩ := hih
        refine ⟨?_, ?_, hnb⟩
        · rw [← h1, he]; rfl
        · rw [← h1]
          intro hm
          rcases List.mem_cons.mp hm with h5 | h5
          · exact hc h5.symm
          · exact hna h5

/-! ### Object-store paths

`DirsAndFileName` mirrors `object_store::path::parsed::DirsAndFileName`: a
list of directory segments plus an optional file name.  The `encoded()`
accessor of a path part is modelled as the stored string itself. -/

deriving instance DecidableEq for Except

structure DirsAndFileName where
  directories : List String
  file_name : Option String
deriving DecidableEq

/-- Plain rendering of a path, standing in for the debug formatting of paths
inside error messages (only message prefixes before the path matter to the
claims). -/
def pathStr (p : DirsAndFileName) : String :=
  String.intercalate "/" (p.directories ++ (match p.file_name with
    | some f => [f]
    | none => []))

/-! ### The storage layer (`storage.rs`) -/

/-- Error type of `storage.rs` (`storage::Error`), restricted to the variants
reachable from the embedded functions. -/
inductive StorageError where
  | openingParquetWriter
  | readingStream
  | writingParquetToMemory
  | closingParquetWriter
  | writingToObjectStore
  | writingToMemWriter
  | extractingMetadataFailure
  | locationParsingFailure (path : DirsAndFileName)
deriving DecidableEq

/-- `Storage` from `storage.rs`: the object-store handle is omitted (it is an
external collaborator which the path functions never inspect); `server_id`
models the `ServerId` (`NonZeroU32`) by its numeric value. -/
structure Storage where
  server_id : Nat
  db_name : String
deriving DecidableEq

/-- `Storage::location`: builds
`<server id>/<database>/data/<partition key>/<chunk id>/<table name>.parquet`
(`data_location` pushes the first three segments, then the partition key and
the decimal chunk id are pushed and the file name is set). -/
def Storage.location (st : Storage) (partition_key : String) (chunk_id : Nat)
    (table_name : String) : DirsAndFileName :=
  { directories := [natToString st.server_id, st.db_name, "data",
      partition_key, natToString chunk_id],
    file_name := some (table_name ++ ".parquet") }

/-- `Storage::parse_location`: accepts exactly five directory segments whose
first two match this storage's server id and db name and whose third is
`"data"`, a fifth segment parsing as `u32`, and a file name splitting on `.`
into a name and the literal extension `parquet`; everything else is a
`LocationParsingFailure` carrying the path. -/
def Storage.parse_location (st : Storage) (path : DirsAndFileName) :
    Except StorageError (String × Nat × String) :=
  match path.directories, path.file_name with
  | [server_id, db_name, dat, partition_key, chunk_id], some filename =>
    if server_id = natToString st.server_id ∧ db_name = st.db_name ∧
        dat = "data" then
      match parseU32Chars chunk_id.data with
      | none => .error (.locationParsingFailure path)
      | some c =>
        match splitChar '.' filename.data with
        | [name, ext] =>
          if ext = "parquet".data then .ok (partition_key, c, String.mk name)
          else .error (.locationParsingFailure path)
        | _ => .error (.locationParsingFailure path)
    else .error (.locationParsingFailure path)
  | _, _ => .error (.locationParsingFailure path)

theorem split_filename (tn : String) (ht : '.' ∉ tn.data) :
    splitChar '.' (tn ++ ".parquet").data = [tn.data, "parquet".data] := by
  rw [String.data_append]
  have hdot : (".parquet" : String).data = '.' :: "parquet".data := rfl
  rw [hdot, splitChar_append_sep _ ht,
    splitChar_not_mem (by decide : ('.' : Char) ∉ "parquet".data)]

/-- C3 (round-trip path): for every table name without a dot and every chunk
id in `u32` range, parsing the key produced by `Storage::location` returns
exactly the partition key, chunk id and table name that produced it. -/
theorem path_round_trip (st : Storage) (pk : String) (c : Nat) (tn : String)
    (hc : c < 4294967296) (ht : '.' ∉ tn.data) :
    st.parse_location (st.location pk c tn) = .ok (pk, c, tn) := by
  simp only [Storage.parse_location, Storage.location]
  rw [if_pos (⟨trivial, trivial, trivial⟩ : True ∧ True ∧ True)]
  have hp : parseU32Chars (natToString c).data = some c := by
    show parseU32Chars (natChars c) = some c
    exact parseU32Chars_natChars hc
  simp only [hp, split_filename tn ht]
  rfl

/-- Witness for C3 at the concrete triple of the repository's own test. -/
theorem path_round_trip_witness :
    (42 < 4294967296 ∧ ('.' : Char) ∉ ("my_table" : String).data) ∧
      (Storage.mk 1 "my_db").parse_location
          ((Storage.mk 1 "my_db").location "p1" 42 "my_table") =
        .ok ("p1", 42, "my_table") :=
  ⟨⟨by decide, by decide⟩,
    path_round_trip (Storage.mk 1 "my_db") "p1" 42 "my_table"
      (by decide) (by decide)⟩

theorem exists_cons3 {α : Type} {l : List α} (h : 3 ≤ l.length) :
    ∃ a b c t, l = a :: b :: c :: t := by
  match l, h with
  | a :: b :: c :: t, _ => exact ⟨a, b, c, t, rfl⟩

/-- C10 (implicit edge case): if the table name contains a dot, the file name
produced by `Storage::location` splits into more than two pieces, so
`Storage::parse_location` rejects the generated key with
`LocationParsingFailure` instead of round-tripping. -/
theorem dotted_table_name_rejected (st : Storage) (pk : String) (c : Nat)
    (tn : String) (ht : '.' ∈ tn.data) :
    st.parse_location (st.location pk c tn) =
      .error (.locationParsingFailure (st.location pk c tn)) := by
  simp only [Storage.parse_location, Storage.location]
  rw [if_pos (⟨trivial, trivial, trivial⟩ : True ∧ True ∧ True)]
  have hsplit : 3 ≤ (splitChar '.' (tn ++ ".parquet").data).length := by
    rw [splitChar_length, String.data_append,
      show (".parquet" : String).data = '.' :: "parquet".data from rfl,
      List.count_append, List.count_cons]
    have h1 : 0 < tn.data.count '.' := List.count_pos_iff.mpr ht
    have h2 : (if (('.' : Char) == '.') = true then 1 else 0) = 1 := rfl
    omega
  obtain ⟨p1, p2, p3, t, hsp⟩ := exists_cons3 hsplit
  cases hval : parseU32Chars (natToString c).data with
  | none => simp only [hval]
  | some v => simp only [hval, hsp]

/-- Witness for C10 at the table name `my.table`. -/
theorem dotted_table_name_rejected_witness :
    (('.' : Char) ∈ ("my.table" : String).data) ∧
      (Storage.mk 1 "my_db").parse_location
          ((Storage.mk 1 "my_db").location "p1" 42 "my.table") =
        .error (.locationParsingFailure
          ((Storage.mk 1 "my_db").location "p1" 42 "my.table")) :=
  ⟨by decide,
    dotted_table_name_rejected (Storage.mk 1 "my_db") "p1" 42 "my.table"
      (by decide)⟩


/-- C7 (parser acceptance condition): `Storage::parse_location` succeeds
exactly on keys with five directory segments — server id, db name, `"data"`,
any partition key, a `u32`-parsable chunk id — and a file name made of a
dot-free table name plus the single extension `.parquet`; every failure is
the location-parse error carrying the offending path. -/
theorem parser_acceptance (st : Storage) (path : DirsAndFileName) :
    ((∃ v, st.parse_location path = .ok v) ↔
      ∃ pk cid nm, path.directories =
          [natToString st.server_id, st.db_name, "data", pk, cid] ∧
        parseU32Chars cid.data ≠ none ∧
        path.file_name = some (String.mk (nm ++ ".parquet".data)) ∧
        '.' ∉ nm) ∧
    (∀ e, st.parse_location path = .error e →
      e = .locationParsingFailure path) := by
  obtain ⟨dirs, fname⟩ := path
  refine ⟨⟨?_, ?_⟩, ?_⟩
  · rintro ⟨v, hv⟩
    simp only [Storage.parse_location] at hv
    split at hv
    · rename_i s d dt pk cid fn
      by_cases hguard : s = natToString st.server_id ∧ d = st.db_name ∧
          dt = "data"
      · rw [if_pos hguard] at hv
        obtain ⟨hs, hd2, hdt⟩ := hguard
        subst hs; subst hd2; subst hdt
        cases hpc : parseU32Chars cid.data with
        | none =>
          simp only [hpc] at hv
          exact Except.noConfusion hv
        | some c =>
          simp only [hpc] at hv
          split at hv
          · rename_i name ext heq
            split at hv
            · rename_i hext
              have hinv := splitChar_two_inv heq
              obtain ⟨hfd, hname, hnext⟩ := hinv
              refine ⟨pk, cid, name, rfl, ?_, ?_, hname⟩
              · rw [hpc]; simp
              · have hfe : fn = String.mk (name ++ ".parquet".data) := by
                  apply String.ext
                  rw [hfd, hext]
                rw [hfe]
            · exact Except.noConfusion hv
          · exact Except.noConfusion hv
      · rw [if_neg hguard] at hv
        exact Except.noConfusion hv
    · exact Except.noConfusion hv
  · rintro ⟨pk, cid, nm, hdirs, hcid, hfn, hnm⟩
    have hdirs2 : dirs = [natToString st.server_id, st.db_name, "data",
        pk, cid] := hdirs
    have hfn2 : fname = some (String.mk (nm ++ ".parquet".data)) := hfn
    subst hdirs2; subst hfn2
    cases hpc : parseU32Chars cid.data with
    | none => exact absurd hpc hcid
    | some c =>
      have hsp : splitChar '.' (String.mk (nm ++ ".parquet".data)).data =
          [nm, "parquet".data] := by
        show splitChar '.' (nm ++ ".parquet".data) = _
        rw [show (".parquet" : String).data = '.' :: "parquet".data from rfl,
          splitChar_append_sep _ hnm,
          splitChar_not_mem (by decide : ('.' : Char) ∉ "parquet".data)]
      refine ⟨(pk, c, String.mk nm), ?_⟩
      simp only [Storage.parse_location, hpc, hsp]
      split_ifs with h1
      · rfl
      · exfalso
        apply h1
        refine ⟨?_, ?_, ?_⟩ <;>
          first
          | exact trivial
          | rfl
  · intro e he
    simp only [Storage.parse_location] at he
    repeat' split at he
    all_goals
      first
      | exact Except.noConfusion he
      | (injection he with h1; exact h1.symm)

/-- Witness for C7: the accepted path of the repository's own test, shown to
satisfy the acceptance condition through the theorem. -/
theorem parser_acceptance_witness :
    ∃ pk cid nm,
      (DirsAndFileName.mk ["1", "my_db", "data", "p1", "42"]
          (some "my_table.parquet")).directories =
        [natToString (Storage.mk 1 "my_db").server_id,
          (Storage.mk 1 "my_db").db_name, "data", pk, cid] ∧
      parseU32Chars cid.data ≠ none ∧
      (DirsAndFileName.mk ["1", "my_db", "data", "p1", "42"]
          (some "my_table.parquet")).file_name =
        some (String.mk (nm ++ ".parquet".data)) ∧
      '.' ∉ nm :=
  (parser_acceptance (Storage.mk 1 "my_db")
      (DirsAndFileName.mk ["1", "my_db", "data", "p1", "42"]
        (some "my_table.parquet"))).1.mp
    ⟨("p1", 42, "my_table"), by decide⟩

/-! ### The rebuild engine (`rebuild.rs`) -/

/-- `IoxMetadata` (declared in `metadata.rs`, consumed by `rebuild.rs`): the
catalog metadata embedded in each chunk file.  The transaction uuid is
modelled by a natural number; only its equality and ordering are used. -/
structure IoxMetadata where
  transaction_revision_counter : Nat
  transaction_uuid : Nat
deriving DecidableEq

/-- Outcome of `read_parquet` on one object: both metadata levels readable
(`ok`, carrying the IOx metadata and an opaque id standing for the
`ParquetMetaData`); the parquet/IOx metadata unreadable
(`metadataReadFailure`, the case guarded by `ignore_metadata_read_failure`);
or the object-store `get` itself failing (`storeReadFailure`). -/
inductive ReadResult where
  | ok (iox : IoxMetadata) (md : Nat)
  | metadataReadFailure
  | storeReadFailure
deriving DecidableEq

/-- One object returned by the object-store listing, with the outcome of
reading it. -/
structure ScannedFile where
  path : DirsAndFileName
  read : ReadResult
deriving DecidableEq

/-- `rebuild::Error`. -/
inductive RebuildError where
  | newEmptyFailure
  | readFailure
  | metadataReadFailure (path : DirsAndFileName)
  | multipleTransactionsFailure (revision_counter uuid1 uuid2 : Nat)
  | revisionZeroFailure (path : DirsAndFileName)
  | fileRecordFailure
  | commitFailure
deriving DecidableEq

/-- The `snafu` display strings of `rebuild::Error` (inner error sources are
omitted at the tail; uuids render through the decimal uuid model). -/
def RebuildError.message : RebuildError → String
  | .newEmptyFailure => "Cannot create new empty catalog: "
  | .readFailure => "Cannot read store: "
  | .metadataReadFailure p =>
      "Cannot read IOx metadata from parquet file (" ++ pathStr p ++ "): "
  | .multipleTransactionsFailure r u1 u2 =>
      "Found multiple transaction for revision " ++ natToString r ++ ": " ++
        natToString u1 ++ " and " ++ natToString u2
  | .revisionZeroFailure p =>
      "Internal error: Revision cannot be zero (this transaction is always empty): "
        ++ pathStr p
  | .fileRecordFailure => "Cannot add file to transaction: "
  | .commitFailure => "Cannot commit transaction: "

/-- Prefix test on strings, used to state the error-message claims. -/
def strStartsWith (s pre : String) : Bool := pre.data.isPrefixOf s.data

/-- `rebuild::is_parquet`: the file-name component ends in `.parquet`. -/
def is_parquet (path : DirsAndFileName) : Bool :=
  match path.file_name with
  | some filename => ".parquet".data.isSuffixOf filename.data
  | none => false

/-- One group of `collect_revisions`: a revision with its transaction uuid
and the files collected for it. -/
abbrev RevEntry := Nat × Nat × List (DirsAndFileName × Nat)

/-- The grouping map `revision → (uuid, [(path, metadata)])` built by
`collect_revisions`.  The Rust `HashMap` is modelled as an association list
in insertion order; only `get`-lookups and the maximum key are consumed. -/
abbrev RevMap := List RevEntry

/-- `HashMap::get` on the modelled map. -/
def lookupRev : RevMap → Nat → Option (Nat × List (DirsAndFileName × Nat))
  | [], _ => none
  | (r, u, es) :: t, r2 => if r = r2 then some (u, es) else lookupRev t r2

/-- The `revisions.entry(..)` logic of `collect_revisions`: a vacant
revision is created with the file's uuid; an occupied one with the same
uuid appends the file; an occupied one with a different uuid aborts with
`MultipleTransactionsFailure`, the uuids sorted for a deterministic error. -/
def insertFile : RevMap → Nat → Nat → (DirsAndFileName × Nat) →
    Except RebuildError RevMap
  | [], r, u, e => .ok [(r, u, [e])]
  | (r2, u2, es) :: t, r, u, e =>
    if r2 = r then
      if u2 = u then .ok ((r2, u2, es ++ [e]) :: t)
      else
        .error (.multipleTransactionsFailure r
          (if u2 < u then u2 else u) (if u2 < u then u else u2))
    else
      match insertFile t r u e with
      | .ok t2 => .ok ((r2, u2, es) :: t2)
      | .error err => .error err

/-- The scan loop of `collect_revisions`, processing the listed objects in
order: non-parquet names are skipped; a store read failure aborts; a
metadata read failure aborts unless `ignore_metadata_read_failure` is set,
in which case the file is skipped with a logged error; revision `0` aborts;
otherwise the file is grouped by revision. -/
def collectGo (ignore_metadata_read_failure : Bool) :
    RevMap → List ScannedFile → Except RebuildError RevMap
  | m, [] => .ok m
  | m, f :: rest =>
    if is_parquet f.path then
      match f.read with
      | .storeReadFailure => .error .readFailure
      | .metadataReadFailure =>
        if ignore_metadata_read_failure then
          collectGo ignore_metadata_read_failure m rest
        else .error (.metadataReadFailure f.path)
      | .ok iox md =>
        if iox.transaction_revision_counter = 0 then
          .error (.revisionZeroFailure f.path)
        else
          match insertFile m iox.transaction_revision_counter
              iox.transaction_uuid (f.path, md) with
          | .ok m2 => collectGo ignore_metadata_read_failure m2 rest
          | .error err => .error err
    else collectGo ignore_metadata_read_failure m rest

/-- `rebuild::collect_revisions`, over the result of the recursive
object-store listing. -/
def collect_revisions (files : List ScannedFile)
    (ignore_metadata_read_failure : Bool) : Except RebuildError RevMap :=
  collectGo ignore_metadata_read_failure [] files

/-- `revisions.keys().max()`. -/
def maxKey : RevMap → Option Nat
  | [] => none
  | (r, _, _) :: t =>
    some (match maxKey t with
      | none => r
      | some m => Nat.max r m)

/-- Modelled from the spec: `PreservedCatalog` (`catalog.rs` is not among
the available sources).  Per §4.5 it carries the current revision counter,
the in-memory catalog state — reduced to the list of added parquet entries,
since the state's `add` hook is the only operation rebuild and add-only
commits exercise — and the committed transaction log
`(revision, uuid, actions)`.  A transaction opened through
`open_transaction_with_uuid` records `some uuid`; a fresh random uuid from
`open_transaction` is recorded as `none`. -/
structure PreservedCatalog where
  revision_counter : Nat
  state : List (DirsAndFileName × Nat)
  txns : List (Nat × Option Nat × List (DirsAndFileName × Nat))
deriving DecidableEq

/-- Modelled from the spec: `PreservedCatalog::new_empty` on a wiped store —
revision 0, empty state, no transaction objects. -/
def PreservedCatalog.new_empty : PreservedCatalog := ⟨0, [], []⟩

/-- Modelled from the spec: opening a transaction (with a known uuid for
`open_transaction_with_uuid`, `none` for a fresh one), adding the given
parquet entries in order through the state's `add` hook, and committing.
Per §4.5 a successful commit advances the revision by one, installs the
updated state and appends the transaction record; commits and `add` are
modelled as succeeding, as the store and state collaborator do for the
scenarios the claims quantify over. -/
def PreservedCatalog.commitWithUuid (cat : PreservedCatalog)
    (uuid : Option Nat) (entries : List (DirsAndFileName × Nat)) :
    PreservedCatalog :=
  { revision_counter := cat.revision_counter + 1,
    state := cat.state ++ entries,
    txns := cat.txns ++ [(cat.revision_counter + 1, uuid, entries)] }

/-- One iteration of the transaction-simulation loop of `rebuild_catalog`
at revision `r`: replay the grouped files with the original uuid, or commit
an empty fresh-uuid transaction when no file was observed at `r`. -/
def replayOne (revisions : RevMap) (cat : PreservedCatalog) (r : Nat) :
    PreservedCatalog :=
  match lookupRev revisions r with
  | some (uuid, entries) => cat.commitWithUuid (some uuid) entries
  | none => cat.commitWithUuid none []

/-- The loop `for revision_counter in 1..=max_revision` of
`rebuild_catalog`, as `count` iterations starting at `start`. -/
def replayRange (revisions : RevMap) (cat : PreservedCatalog)
    (start count : Nat) : PreservedCatalog :=
  match count with
  | 0 => cat
  | count + 1 =>
    replayRange revisions (replayOne revisions cat start) (start + 1) count

/-- `rebuild::rebuild_catalog`, over the listing result: group the files by
revision, then simulate all transactions contiguously from 1 up to the
largest observed revision (none at all when no file was observed). -/
def rebuild_catalog (files : List ScannedFile)
    (ignore_metadata_read_failure : Bool) :
    Except RebuildError PreservedCatalog :=
  match collect_revisions files ignore_metadata_read_failure with
  | .error e => .error e
  | .ok revisions =>
    match maxKey revisions with
    | none => .ok PreservedCatalog.new_empty
    | some maxRev =>
      .ok (replayRange revisions PreservedCatalog.new_empty 1 maxRev)

/-! ### Forward model: catalogs built by add-only commit sequences -/

/-- A chunk added by a commit: its logical identity (partition key, chunk
id, table name) plus an opaque id standing for the parquet metadata recorded
with it. -/
structure ChunkSpec where
  partition_key : String
  chunk_id : Nat
  table_name : String
  md : Nat
deriving DecidableEq

/-- Modelled from the spec: one successful commit whose only actions are
chunk additions (§4.5 transaction protocol, P4): the transaction's uuid and
the chunks it adds, in order. -/
structure Commit where
  uuid : Nat
  chunks : List ChunkSpec
deriving DecidableEq

/-- The catalog entries a chunk list contributes, keyed by
`Storage::location`. -/
def entriesOfChunks (st : Storage) (chunks : List ChunkSpec) :
    List (DirsAndFileName × Nat) :=
  chunks.map fun ch =>
    (st.location ch.partition_key ch.chunk_id ch.table_name, ch.md)

/-- The catalog entries a commit adds. -/
def entriesOf (st : Storage) (c : Commit) : List (DirsAndFileName × Nat) :=
  entriesOfChunks st c.chunks

/-- The chunk files a commit at revision `r` with uuid `u` leaves in the
object store: per invariant I4 each file's embedded metadata carries the
committing transaction's revision and uuid. -/
def chunkFiles (st : Storage) (r u : Nat) (chunks : List ChunkSpec) :
    List ScannedFile :=
  chunks.map fun ch =>
    ⟨st.location ch.partition_key ch.chunk_id ch.table_name,
      .ok ⟨r, u⟩ ch.md⟩

/-- The object-store contents after executing a commit sequence whose
revisions start at `base + 1`, in scan order. -/
def storeFilesFrom (st : Storage) (base : Nat) :
    List Commit → List ScannedFile
  | [] => []
  | c :: rest =>
    chunkFiles st (base + 1) c.uuid c.chunks ++
      storeFilesFrom st (base + 1) rest

/-- The grouping `collect_revisions` builds from those files: one entry per
non-empty commit, in revision order. -/
def groupsFrom (st : Storage) (base : Nat) : List Commit → RevMap
  | [] => []
  | c :: rest =>
    if c.chunks = [] then groupsFrom st (base + 1) rest
    else (base + 1, c.uuid, entriesOf st c) :: groupsFrom st (base + 1) rest

/-- The transaction log rebuild recreates for those commits: the original
uuid and entries for revisions with observed files, an empty fresh-uuid
transaction for the others. -/
def txnSpecFrom (st : Storage) (base : Nat) :
    List Commit → List (Nat × Option Nat × List (DirsAndFileName × Nat))
  | [] => []
  | c :: rest =>
    (if c.chunks = [] then (base + 1, none, [])
     else (base + 1, some c.uuid, entriesOf st c)) ::
      txnSpecFrom st (base + 1) rest

/-- The reconstruction loop consults the grouping at `base + 1 + j` for the
`j`-th remaining commit; this is what it finds. -/
def lookupSpec (st : Storage) :
    List Commit → Nat → Option (Nat × List (DirsAndFileName × Nat))
  | [], _ => none
  | c :: _, 0 => if c.chunks = [] then none else some (c.uuid, entriesOf st c)
  | _ :: rest, j + 1 => lookupSpec st rest j

/-- Modelled from the spec: executing a sequence of successful add-only
commits against a catalog (§4.5 transaction protocol). -/
def applyCommitsAux (st : Storage) (cat : PreservedCatalog) :
    List Commit → PreservedCatalog
  | [] => cat
  | c :: rest =>
    applyCommitsAux st (cat.commitWithUuid (some c.uuid) (entriesOf st c))
      rest

/-- Modelled from the spec: the catalog built from empty by a commit
sequence. -/
def applyCommits (st : Storage) (S : List Commit) : PreservedCatalog :=
  applyCommitsAux st PreservedCatalog.new_empty S

/-- Does the final commit of the sequence (if any) add at least one chunk?
Trailing empty commits are exactly the revisions rebuild cannot recover. -/
def lastCommitAddsChunkB : List Commit → Bool
  | [] => true
  | [c] => !c.chunks.isEmpty
  | _ :: rest => lastCommitAddsChunkB rest

/-! ### Supporting lemmas for the rebuild-fidelity claims -/

theorem is_parquet_location (st : Storage) (pk : String) (c : Nat)
    (tn : String) : is_parquet (st.location pk c tn) = true := by
  simp only [is_parquet, Storage.location]
  rw [String.data_append]
  have h : (".parquet" : String).data <:+ tn.data ++ (".parquet").data :=
    List.suffix_append _ _
  exact List.isSuffixOf_iff_suffix.mpr h

theorem lookupRev_cons (r2 u2 : Nat) (es : List (DirsAndFileName × Nat))
    (t : RevMap) (r : Nat) :
    lookupRev ((r2, u2, es) :: t) r =
      if r2 = r then some (u2, es) else lookupRev t r := rfl

theorem insertFile_cons (r2 u2 : Nat) (es : List (DirsAndFileName × Nat))
    (t : RevMap) (r u : Nat) (e : DirsAndFileName × Nat) :
    insertFile ((r2, u2, es) :: t) r u e =
      if r2 = r then
        if u2 = u then Except.ok ((r2, u2, es ++ [e]) :: t)
        else Except.error (.multipleTransactionsFailure r
          (if u2 < u then u2 else u) (if u2 < u then u else u2))
      else
        match insertFile t r u e with
        | Except.ok t2 => Except.ok ((r2, u2, es) :: t2)
        | Except.error err => Except.error err := rfl

theorem lookupRev_of_bounds {m : RevMap} {r : Nat}
    (h : ∀ x ∈ m, x.1 ≠ r) : lookupRev m r = none := by
  induction m with
  | nil => rfl
  | cons x t ih =>
    obtain ⟨r2, u2, es⟩ := x
    have hne : r2 ≠ r := h (r2, u2, es) (List.mem_cons_self _ _)
    rw [lookupRev_cons, if_neg hne]
    exact ih fun y hy => h y (List.mem_cons_of_mem _ hy)

theorem insertFile_vacant {m : RevMap} {r : Nat}
    (h : ∀ x ∈ m, x.1 ≠ r) (u : Nat) (e : DirsAndFileName × Nat) :
    insertFile m r u e = .ok (m ++ [(r, u, [e])]) := by
  induction m with
  | nil => rfl
  | cons x t ih =>
    obtain ⟨r2, u2, es⟩ := x
    have hne : r2 ≠ r := h (r2, u2, es) (List.mem_cons_self _ _)
    rw [insertFile_cons, if_neg hne,
      ih fun y hy => h y (List.mem_cons_of_mem _ hy)]
    rfl

theorem insertFile_occupied {m : RevMap} {r : Nat}
    (h : ∀ x ∈ m, x.1 ≠ r) (u : Nat) (es : List (DirsAndFileName × Nat))
    (e : DirsAndFileName × Nat) :
    insertFile (m ++ [(r, u, es)]) r u e = .ok (m ++ [(r, u, es ++ [e])]) := by
  induction m with
  | nil =>
    rw [List.nil_append, List.nil_append, insertFile_cons, if_pos rfl,
      if_pos rfl]
  | cons x t ih =>
    obtain ⟨r2, u2, es2⟩ := x
    have hne : r2 ≠ r := h (r2, u2, es2) (List.mem_cons_self _ _)
    rw [List.cons_append, insertFile_cons, if_neg hne,
      ih fun y hy => h y (List.mem_cons_of_mem _ hy)]
    rfl

theorem collectGo_cons (flag : Bool) (m : RevMap) (f : ScannedFile)
    (rest : List ScannedFile) :
    collectGo flag m (f :: rest) =
      if is_parquet f.path then
        match f.read with
        | .storeReadFailure => .error .readFailure
        | .metadataReadFailure =>
          if flag then collectGo flag m rest
          else .error (.metadataReadFailure f.path)
        | .ok iox md =>
          if iox.transaction_revision_counter = 0 then
            .error (.revisionZeroFailure f.path)
          else
            match insertFile m iox.transaction_revision_counter
                iox.transaction_uuid (f.path, md) with
            | .ok m2 => collectGo flag m2 rest
            | .error err => .error err
      else collectGo flag m rest := rfl

theorem collectGo_chunkFiles (st : Storage) (flag : Bool) (r u : Nat)
    (hr : r ≠ 0) (chunks : List ChunkSpec) :
    ∀ (m : RevMap)
      (es : List (DirsAndFileName × Nat)) (rest : List ScannedFile),
      (∀ x ∈ m, x.1 ≠ r) →
      collectGo flag (m ++ [(r, u, es)]) (chunkFiles st r u chunks ++ rest) =
        collectGo flag (m ++ [(r, u, es ++ entriesOfChunks st chunks)])
          rest := by
  induction chunks with
  | nil =>
    intro m es rest hm
    simp [chunkFiles, entriesOfChunks]
  | cons ch chunks ih =>
    intro m es rest hm
    simp only [chunkFiles, List.map_cons, List.cons_append, collectGo_cons]
    rw [if_pos (is_parquet_location st ch.partition_key ch.chunk_id
      ch.table_name)]
    rw [if_neg hr]
    have hins := insertFile_occupied (r := r)
      (fun x hx => hm x hx) u es
      (st.location ch.partition_key ch.chunk_id ch.table_name, ch.md)
    simp only [hins]
    have hrec := ih m
      (es ++ [(st.location ch.partition_key ch.chunk_id ch.table_name,
        ch.md)]) rest hm
    simp only [chunkFiles] at hrec
    rw [hrec]
    simp [entriesOfChunks, List.append_assoc]

theorem collectGo_chunkFiles_fresh (st : Storage) (flag : Bool) (r u : Nat)
    (hr : r ≠ 0) (chunks : List ChunkSpec) (m : RevMap)
    (rest : List ScannedFile) (hne : chunks ≠ [])
    (hm : ∀ x ∈ m, x.1 ≠ r) :
    collectGo flag m (chunkFiles st r u chunks ++ rest) =
      collectGo flag (m ++ [(r, u, entriesOfChunks st chunks)]) rest := by
  cases chunks with
  | nil => exact absurd rfl hne
  | cons ch chunks =>
    simp only [chunkFiles, List.map_cons, List.cons_append, collectGo_cons]
    rw [if_pos (is_parquet_location st ch.partition_key ch.chunk_id
      ch.table_name)]
    rw [if_neg hr]
    have hins := insertFile_vacant hm u
      (st.location ch.partition_key ch.chunk_id ch.table_name, ch.md)
    simp only [hins]
    have hrec := collectGo_chunkFiles st flag r u hr chunks m
      [(st.location ch.partition_key ch.chunk_id ch.table_name, ch.md)]
      rest hm
    simp only [chunkFiles] at hrec
    rw [hrec]
    simp [entriesOfChunks]

theorem collectGo_storeFilesFrom (st : Storage) (flag : Bool)
    (S : List Commit) :
    ∀ (base : Nat) (m : RevMap),
      (∀ x ∈ m, x.1 ≤ base) →
      collectGo flag m (storeFilesFrom st base S) =
        .ok (m ++ groupsFrom st base S) := by
  induction S with
  | nil =>
    intro base m hm
    simp [storeFilesFrom, groupsFrom, collectGo]
  | cons c rest ih =>
    intro base m hm
    simp only [storeFilesFrom, groupsFrom]
    by_cases hcz : c.chunks = []
    · rw [if_pos hcz, hcz]
      simp only [chunkFiles, List.map_nil, List.nil_append]
      exact ih (base + 1) m fun x hx => Nat.le_succ_of_le (hm x hx)
    · rw [if_neg hcz]
      have hm2 : ∀ x ∈ m, x.1 ≠ base + 1 := fun x hx => by
        have := hm x hx; omega
      rw [collectGo_chunkFiles_fresh st flag (base + 1) c.uuid
        (by omega) c.chunks m _ hcz hm2]
      have hbound : ∀ x ∈ m ++ [(base + 1, c.uuid,
          entriesOfChunks st c.chunks)], x.1 ≤ base + 1 := by
        intro x hx
        rcases List.mem_append.mp hx with h1 | h1
        · exact Nat.le_succ_of_le (hm x h1)
        · simp only [List.mem_singleton] at h1
          subst h1
          exact Nat.le_refl _
      rw [ih (base + 1) _ hbound]
      simp [entriesOf, List.append_assoc]

theorem maxKey_cons (r u : Nat) (es : List (DirsAndFileName × Nat))
    (t : RevMap) :
    maxKey ((r, u, es) :: t) =
      some (match maxKey t with
        | none => r
        | some m => Nat.max r m) := rfl

theorem maxKey_groupsFrom (st : Storage) (S : List Commit) :
    ∀ (base : Nat), S ≠ [] →
      lastCommitAddsChunkB S = true →
      maxKey (groupsFrom st base S) = some (base + S.length) := by
  induction S with
  | nil => intro base hne; exact absurd rfl hne
  | cons c rest ih =>
    intro base hne hlast
    by_cases hr : rest = []
    · subst hr
      have hcz : ¬(c.chunks = []) := by
        simp only [lastCommitAddsChunkB] at hlast
        simpa using hlast
      simp only [groupsFrom, if_neg hcz]
      rfl
    · have hlast2 : lastCommitAddsChunkB rest = true := by
        cases rest with
        | nil => exact absurd rfl hr
        | cons c2 rest2 => exact hlast
      have hrec := ih (base + 1) hr hlast2
      simp only [groupsFrom]
      by_cases hcz : c.chunks = []
      · rw [if_pos hcz, hrec]
        simp only [Option.some.injEq, List.length_cons]
        omega
      · rw [if_neg hcz, maxKey_cons, hrec]
        simp only [Option.some.injEq, List.length_cons]
        have hmx : (base + 1).max (base + 1 + rest.length) =
            base + 1 + rest.length := Nat.max_eq_right (by omega)
        rw [hmx]
        omega

theorem groupsFrom_keys_gt (st : Storage) (S : List Commit) :
    ∀ (base : Nat), ∀ x ∈ groupsFrom st base S,
      base < x.1 := by
  induction S with
  | nil => intro base x hx; simp [groupsFrom] at hx
  | cons c rest ih =>
    intro base x hx
    simp only [groupsFrom] at hx
    by_cases hcz : c.chunks = []
    · rw [if_pos hcz] at hx
      have := ih (base + 1) x hx
      omega
    · rw [if_neg hcz] at hx
      rcases List.mem_cons.mp hx with h1 | h1
      · subst h1
        show base < base + 1
        omega
      · have := ih (base + 1) x h1
        omega

theorem lookupRev_groupsFrom (st : Storage) (S : List Commit) :
    ∀ (base j : Nat),
      lookupRev (groupsFrom st base S) (base + 1 + j) = lookupSpec st S j := by
  induction S with
  | nil => intro base j; rfl
  | cons c rest ih =>
    intro base j
    simp only [groupsFrom]
    by_cases hcz : c.chunks = []
    · rw [if_pos hcz]
      cases j with
      | zero =>
        rw [lookupRev_of_bounds fun x hx => by
          have := groupsFrom_keys_gt st rest (base + 1) x hx; omega]
        simp [lookupSpec, hcz]
      | succ j =>
        rw [show base + 1 + (j + 1) = (base + 1) + 1 + j by omega,
          ih (base + 1) j]
        rfl
    · rw [if_neg hcz]
      cases j with
      | zero =>
        simp only [Nat.add_zero]
        rw [lookupRev_cons, if_pos rfl]
        simp [lookupSpec, hcz]
      | succ j =>
        rw [lookupRev_cons,
          if_neg (by omega : ¬(base + 1 = base + 1 + (j + 1)))]
        rw [show base + 1 + (j + 1) = (base + 1) + 1 + j by omega,
          ih (base + 1) j]
        rfl

theorem replayRange_succ (M : RevMap) (cat : PreservedCatalog)
    (start count : Nat) :
    replayRange M cat start (count + 1) =
      replayRange M (replayOne M cat start) (start + 1) count := rfl

theorem replayRange_applyCommits (st : Storage) (M : RevMap)
    (S : List Commit) :
    ∀ (base : Nat) (cat1 cat2 : PreservedCatalog),
      (∀ j, lookupRev M (base + 1 + j) = lookupSpec st S j) →
      cat1.revision_counter = base →
      cat2.revision_counter = base →
      cat1.state = cat2.state →
      (replayRange M cat1 (base + 1) S.length).revision_counter =
          (applyCommitsAux st cat2 S).revision_counter ∧
        (replayRange M cat1 (base + 1) S.length).state =
          (applyCommitsAux st cat2 S).state ∧
        (replayRange M cat1 (base + 1) S.length).txns =
          cat1.txns ++ txnSpecFrom st base S := by
  induction S with
  | nil =>
    intro base cat1 cat2 hlk h1 h2 hs
    refine ⟨?_, hs, ?_⟩
    · show cat1.revision_counter = cat2.revision_counter
      rw [h1, h2]
    · show cat1.txns = cat1.txns ++ []
      simp
  | cons c rest ih =>
    intro base cat1 cat2 hlk h1 h2 hs
    have h0 := hlk 0
    rw [Nat.add_zero] at h0
    have hlk2 : ∀ j, lookupRev M (base + 1 + 1 + j) = lookupSpec st rest j :=
      fun j => by
        have hj := hlk (j + 1)
        rw [show base + 1 + (j + 1) = base + 1 + 1 + j by omega] at hj
        exact hj
    simp only [List.length_cons, replayRange_succ]
    by_cases hcz : c.chunks = []
    · have hent : entriesOf st c = [] := by
        simp [entriesOf, entriesOfChunks, hcz]
      have h0n : lookupRev M (base + 1) = none := by
        rw [h0]
        simp [lookupSpec, hcz]
      have hro : replayOne M cat1 (base + 1) =
          cat1.commitWithUuid none [] := by
        simp [replayOne, h0n]
      rw [hro]
      have hrec := ih (base + 1) (cat1.commitWithUuid none [])
        (cat2.commitWithUuid (some c.uuid) (entriesOf st c)) hlk2
        (by simp [PreservedCatalog.commitWithUuid, h1])
        (by simp [PreservedCatalog.commitWithUuid, h2])
        (by simp [PreservedCatalog.commitWithUuid, hs, hent])
      refine ⟨hrec.1, hrec.2.1, ?_⟩
      rw [hrec.2.2]
      simp [PreservedCatalog.commitWithUuid, txnSpecFrom, hcz, h1,
        List.append_assoc]
    · have h0s : lookupRev M (base + 1) = some (c.uuid, entriesOf st c) := by
        rw [h0]
        simp [lookupSpec, hcz]
      have hro : replayOne M cat1 (base + 1) =
          cat1.commitWithUuid (some c.uuid) (entriesOf st c) := by
        simp [replayOne, h0s]
      rw [hro]
      have hrec := ih (base + 1)
        (cat1.commitWithUuid (some c.uuid) (entriesOf st c))
        (cat2.commitWithUuid (some c.uuid) (entriesOf st c)) hlk2
        (by simp [PreservedCatalog.commitWithUuid, h1])
        (by simp [PreservedCatalog.commitWithUuid, h2])
        (by simp [PreservedCatalog.commitWithUuid, hs])
      refine ⟨hrec.1, hrec.2.1, ?_⟩
      rw [hrec.2.2]
      simp [PreservedCatalog.commitWithUuid, txnSpecFrom, hcz, h1,
        List.append_assoc]

/-- C1 as amended (rebuild fidelity): for a catalog built by add-only
commits, wipe + rebuild restores the revision counter and exactly the set
of chunk keys — provided the final commit added at least one chunk, since
rebuild can only see revisions witnessed by some chunk file and therefore
cannot recover trailing empty commits. -/
theorem rebuild_fidelity_amended (st : Storage) (S : List Commit)
    (hlast : lastCommitAddsChunkB S = true) :
    ∃ cat, rebuild_catalog (storeFilesFrom st 0 S) false = .ok cat ∧
      cat.revision_counter = (applyCommits st S).revision_counter ∧
      ∀ k, k ∈ cat.state.map Prod.fst ↔
        k ∈ (applyCommits st S).state.map Prod.fst := by
  have hcol : collect_revisions (storeFilesFrom st 0 S) false =
      .ok (groupsFrom st 0 S) := by
    have := collectGo_storeFilesFrom st false S 0 []
      (by intro x hx; simp at hx)
    simpa [collect_revisions] using this
  by_cases hS : S = []
  · subst hS
    exact ⟨PreservedCatalog.new_empty, rfl, rfl, fun k => Iff.rfl⟩
  · have hmax : maxKey (groupsFrom st 0 S) = some S.length := by
      have := maxKey_groupsFrom st S 0 hS hlast
      simpa using this
    have hrep := replayRange_applyCommits st (groupsFrom st 0 S) S 0
      PreservedCatalog.new_empty PreservedCatalog.new_empty
      (lookupRev_groupsFrom st S 0) rfl rfl rfl
    simp only [Nat.zero_add] at hrep
    refine ⟨replayRange (groupsFrom st 0 S) PreservedCatalog.new_empty 1
      S.length, ?_, ?_, ?_⟩
    · simp only [rebuild_catalog, hcol, hmax]
    · exact hrep.1
    · intro k
      rw [hrep.2.1]
      exact Iff.rfl

/-- Counterexample to C1 as stated: a single empty commit is a sequence of
successful commits whose only actions are adds (there are none), yet after
wipe + rebuild the catalog sits at revision 0 while the original reached
revision 1 — no chunk file witnesses the empty revision. -/
theorem rebuild_fidelity_counterexample :
    (rebuild_catalog (storeFilesFrom (Storage.mk 1 "db1") 0
        [Commit.mk 7 []]) false).map PreservedCatalog.revision_counter =
      .ok 0 ∧
    (applyCommits (Storage.mk 1 "db1")
        [Commit.mk 7 []]).revision_counter = 1 ∧
    (0 : Nat) ≠ 1 := by
  decide

/-- Witness for the amended C1 at the spec's successful-rebuild scenario:
commit 1 adds chunk ids 0 and 1, commit 2 is empty, commit 3 adds chunk
id 2. -/
theorem rebuild_fidelity_amended_witness :
    lastCommitAddsChunkB
        [Commit.mk 10 [ChunkSpec.mk "part1" 0 "table1" 0,
          ChunkSpec.mk "part1" 1 "table1" 1],
         Commit.mk 11 [],
         Commit.mk 12 [ChunkSpec.mk "part1" 2 "table1" 2]] = true ∧
      ∃ cat, rebuild_catalog (storeFilesFrom (Storage.mk 1 "db1") 0
          [Commit.mk 10 [ChunkSpec.mk "part1" 0 "table1" 0,
            ChunkSpec.mk "part1" 1 "table1" 1],
           Commit.mk 11 [],
           Commit.mk 12 [ChunkSpec.mk "part1" 2 "table1" 2]]) false =
          .ok cat ∧
        cat.revision_counter = (applyCommits (Storage.mk 1 "db1")
          [Commit.mk 10 [ChunkSpec.mk "part1" 0 "table1" 0,
            ChunkSpec.mk "part1" 1 "table1" 1],
           Commit.mk 11 [],
           Commit.mk 12 [ChunkSpec.mk "part1" 2 "table1" 2]]).revision_counter ∧
        ∀ k, k ∈ cat.state.map Prod.fst ↔
          k ∈ (applyCommits (Storage.mk 1 "db1")
            [Commit.mk 10 [ChunkSpec.mk "part1" 0 "table1" 0,
              ChunkSpec.mk "part1" 1 "table1" 1],
             Commit.mk 11 [],
             Commit.mk 12 [ChunkSpec.mk "part1" 2 "table1"
               2]]).state.map Prod.fst :=
  ⟨by decide,
    rebuild_fidelity_amended (Storage.mk 1 "db1")
      [Commit.mk 10 [ChunkSpec.mk "part1" 0 "table1" 0,
        ChunkSpec.mk "part1" 1 "table1" 1],
       Commit.mk 11 [],
       Commit.mk 12 [ChunkSpec.mk "part1" 2 "table1" 2]] (by decide)⟩

/-- C2 as amended (empty-gap preservation): when the sequence contains empty
commits, rebuild still reaches the original revision counter — provided the
final commit added a chunk — replaying exactly one transaction per revision
from 1 to the maximum observed revision: the original uuid and files where
files were observed, and an empty fresh-uuid transaction for every gap. -/
theorem empty_gap_preservation_amended (st : Storage) (S : List Commit)
    (hlast : lastCommitAddsChunkB S = true)
    (hgap : ∃ c ∈ S, c.chunks = []) :
    ∃ cat, rebuild_catalog (storeFilesFrom st 0 S) false = .ok cat ∧
      cat.revision_counter = (applyCommits st S).revision_counter ∧
      cat.txns = txnSpecFrom st 0 S := by
  have hS : S ≠ [] := by
    obtain ⟨c, hc, _⟩ := hgap
    intro h
    subst h
    simp at hc
  have hcol : collect_revisions (storeFilesFrom st 0 S) false =
      .ok (groupsFrom st 0 S) := by
    have := collectGo_storeFilesFrom st false S 0 []
      (by intro x hx; simp at hx)
    simpa [collect_revisions] using this
  have hmax : maxKey (groupsFrom st 0 S) = some S.length := by
    have := maxKey_groupsFrom st S 0 hS hlast
    simpa using this
  have hrep := replayRange_applyCommits st (groupsFrom st 0 S) S 0
    PreservedCatalog.new_empty PreservedCatalog.new_empty
    (lookupRev_groupsFrom st S 0) rfl rfl rfl
  simp only [Nat.zero_add] at hrep
  refine ⟨replayRange (groupsFrom st 0 S) PreservedCatalog.new_empty 1
    S.length, ?_, hrep.1, ?_⟩
  · simp only [rebuild_catalog, hcol, hmax]
  · rw [hrep.2.2]
    rfl

/-- Counterexample to C2 as stated: one add-commit followed by one empty
commit; the original catalog reaches revision 2 but no chunk file witnesses
revision 2, so rebuild stops at revision 1. -/
theorem empty_gap_counterexample :
    (rebuild_catalog (storeFilesFrom (Storage.mk 1 "db1") 0
        [Commit.mk 5 [ChunkSpec.mk "p1" 0 "t1" 3], Commit.mk 6 []])
        false).map PreservedCatalog.revision_counter = .ok 1 ∧
    (applyCommits (Storage.mk 1 "db1")
        [Commit.mk 5 [ChunkSpec.mk "p1" 0 "t1" 3],
          Commit.mk 6 []]).revision_counter = 2 ∧
    (1 : Nat) ≠ 2 := by
  decide

/-- Witness for the amended C2: an interior empty commit between two
add-commits is recovered as an empty fresh-uuid transaction. -/
theorem empty_gap_preservation_amended_witness :
    lastCommitAddsChunkB
        [Commit.mk 20 [ChunkSpec.mk "p" 0 "t" 5],
         Commit.mk 21 [],
         Commit.mk 22 [ChunkSpec.mk "p" 1 "t" 6]] = true ∧
      (∃ c ∈ [Commit.mk 20 [ChunkSpec.mk "p" 0 "t" 5],
         Commit.mk 21 [],
         Commit.mk 22 [ChunkSpec.mk "p" 1 "t" 6]], c.chunks = []) ∧
      ∃ cat, rebuild_catalog (storeFilesFrom (Storage.mk 1 "db1") 0
          [Commit.mk 20 [ChunkSpec.mk "p" 0 "t" 5],
           Commit.mk 21 [],
           Commit.mk 22 [ChunkSpec.mk "p" 1 "t" 6]]) false = .ok cat ∧
        cat.revision_counter = (applyCommits (Storage.mk 1 "db1")
          [Commit.mk 20 [ChunkSpec.mk "p" 0 "t" 5],
           Commit.mk 21 [],
           Commit.mk 22 [ChunkSpec.mk "p" 1 "t" 6]]).revision_counter ∧
        cat.txns = txnSpecFrom (Storage.mk 1 "db1") 0
          [Commit.mk 20 [ChunkSpec.mk "p" 0 "t" 5],
           Commit.mk 21 [],
           Commit.mk 22 [ChunkSpec.mk "p" 1 "t" 6]] :=
  ⟨by decide, by decide,
    empty_gap_preservation_amended (Storage.mk 1 "db1")
      [Commit.mk 20 [ChunkSpec.mk "p" 0 "t" 5],
       Commit.mk 21 [],
       Commit.mk 22 [ChunkSpec.mk "p" 1 "t" 6]] (by decide) (by decide)⟩

/-! ### Predicates and lemmas for the error-handling claims -/

/-- The file was read successfully with the given embedded revision and
uuid. -/
def readsOkB (f : ScannedFile) (r u : Nat) : Bool :=
  match f.read with
  | .ok iox _ =>
    iox.transaction_revision_counter == r && iox.transaction_uuid == u
  | _ => false

/-- Both metadata levels of the file are readable. -/
def isReadableB (f : ScannedFile) : Bool :=
  match f.read with
  | .ok _ _ => true
  | _ => false

/-- The file is readable and its embedded revision is non-zero. -/
def readableNonzeroB (f : ScannedFile) : Bool :=
  match f.read with
  | .ok iox _ => decide (iox.transaction_revision_counter ≠ 0)
  | _ => false

/-- The file is readable and advertises the reserved revision `0`. -/
def readsZeroB (f : ScannedFile) : Bool :=
  match f.read with
  | .ok iox _ => iox.transaction_revision_counter == 0
  | _ => false

/-- Two parquet-named files carrying the same embedded revision but
different uuids — the situation `collect_revisions` must reject. -/
def conflictPairB (f g : ScannedFile) : Bool :=
  is_parquet f.path && is_parquet g.path &&
    match f.read, g.read with
    | .ok i1 _, .ok i2 _ =>
      i1.transaction_revision_counter == i2.transaction_revision_counter &&
        i1.transaction_uuid != i2.transaction_uuid
    | _, _ => false

/-- Reading the file failed at the metadata level. -/
def isMetaFailB (f : ScannedFile) : Bool :=
  decide (f.read = ReadResult.metadataReadFailure)

/-- Every revision/uuid group of the map is witnessed by a scanned parquet
file of `files0`. -/
def soundFor (files0 : List ScannedFile) (m : RevMap) : Prop :=
  ∀ r u es, lookupRev m r = some (u, es) →
    ∃ f ∈ files0, is_parquet f.path = true ∧ readsOkB f r u = true

/-- A same-revision/different-uuid conflict, either between an existing
group and a file still to scan or between two files still to scan. -/
def conflictL (m : RevMap) (files : List ScannedFile) : Prop :=
  (∃ r u es, lookupRev m r = some (u, es) ∧
    ∃ g ∈ files, is_parquet g.path = true ∧
      ∃ u2, readsOkB g r u2 = true ∧ u2 ≠ u) ∨
  (∃ f ∈ files, ∃ g ∈ files, conflictPairB f g = true)

theorem lookupRev_none_forall {m : RevMap} {r : Nat}
    (h : lookupRev m r = none) : ∀ x ∈ m, x.1 ≠ r := by
  induction m with
  | nil => intro x hx; simp at hx
  | cons y t ih =>
    obtain ⟨r2, u2, es⟩ := y
    intro x hx
    rw [lookupRev_cons] at h
    by_cases hr : r2 = r
    · rw [if_pos hr] at h
      simp at h
    · rw [if_neg hr] at h
      rcases List.mem_cons.mp hx with h1 | h1
      · subst h1; exact hr
      · exact ih h x h1

theorem insertFile_lookup_self {m : RevMap} {r u : Nat}
    {e : DirsAndFileName × Nat} {m2 : RevMap}
    (h : insertFile m r u e = .ok m2) :
    ∃ es2, lookupRev m2 r = some (u, es2) := by
  induction m generalizing m2 with
  | nil =>
    have h2 : Except.ok ([(r, u, [e])] : RevMap) = Except.ok m2 := h
    injection h2 with h3
    subst h3
    exact ⟨[e], by rw [lookupRev_cons, if_pos rfl]⟩
  | cons y t ih =>
    obtain ⟨r2, u2, es⟩ := y
    rw [insertFile_cons] at h
    by_cases hr : r2 = r
    · rw [if_pos hr] at h
      by_cases hu : u2 = u
      · rw [if_pos hu] at h
        injection h with h3
        subst h3
        exact ⟨es ++ [e], by rw [lookupRev_cons, if_pos hr, hu]⟩
      · rw [if_neg hu] at h
        exact Except.noConfusion h
    · rw [if_neg hr] at h
      cases ht : insertFile t r u e with
      | error err => rw [ht] at h; exact Except.noConfusion h
      | ok t2 =>
        rw [ht] at h
        have h3 : Except.ok ((r2, u2, es) :: t2 : RevMap) = Except.ok m2 := h
        injection h3 with h4
        subst h4
        obtain ⟨es2, hes2⟩ := ih ht
        exact ⟨es2, by rw [lookupRev_cons, if_neg hr]; exact hes2⟩

theorem insertFile_lookup_other {m : RevMap} {r u : Nat}
    {e : DirsAndFileName × Nat} {m2 : RevMap}
    (h : insertFile m r u e = .ok m2) :
    ∀ r2, r2 ≠ r → lookupRev m2 r2 = lookupRev m r2 := by
  induction m generalizing m2 with
  | nil =>
    have h2 : Except.ok ([(r, u, [e])] : RevMap) = Except.ok m2 := h
    injection h2 with h3
    subst h3
    intro r2 hne
    rw [lookupRev_cons, if_neg (fun hcon => hne hcon.symm)]
  | cons y t ih =>
    obtain ⟨r3, u3, es⟩ := y
    rw [insertFile_cons] at h
    intro r2 hne
    by_cases hr : r3 = r
    · rw [if_pos hr] at h
      by_cases hu : u3 = u
      · rw [if_pos hu] at h
        injection h with h3
        subst h3
        rw [lookupRev_cons, lookupRev_cons]
        by_cases h4 : r3 = r2
        · exact absurd (hr.symm.trans h4) (fun hcon => hne hcon.symm)
        · rw [if_neg h4, if_neg h4]
      · rw [if_neg hu] at h
        exact Except.noConfusion h
    · rw [if_neg hr] at h
      cases ht : insertFile t r u e with
      | error err => rw [ht] at h; exact Except.noConfusion h
      | ok t2 =>
        rw [ht] at h
        have h3 : Except.ok ((r3, u3, es) :: t2 : RevMap) = Except.ok m2 := h
        injection h3 with h4
        subst h4
        rw [lookupRev_cons, lookupRev_cons]
        by_cases h4 : r3 = r2
        · rw [if_pos h4, if_pos h4]
        · rw [if_neg h4, if_neg h4]
          exact ih ht r2 hne

theorem insertFile_ok_first {m : RevMap} {r u : Nat}
    {e : DirsAndFileName × Nat} {m2 : RevMap}
    (h : insertFile m r u e = .ok m2) :
    ∀ u2 es, lookupRev m r = some (u2, es) → u2 = u := by
  induction m generalizing m2 with
  | nil => intro u2 es hlk; exact Option.noConfusion hlk
  | cons y t ih =>
    obtain ⟨r3, u3, es3⟩ := y
    rw [insertFile_cons] at h
    intro u2 es hlk
    rw [lookupRev_cons] at hlk
    by_cases hr : r3 = r
    · rw [if_pos hr] at h hlk
      by_cases hu : u3 = u
      · have h5 : u3 = u2 ∧ es3 = es := by simpa using hlk
        rw [← h5.1, hu]
      · rw [if_neg hu] at h
        exact Except.noConfusion h
    · rw [if_neg hr] at h hlk
      cases ht : insertFile t r u e with
      | error err => rw [ht] at h; exact Except.noConfusion h
      | ok t2 => exact ih ht u2 es hlk

theorem insertFile_found_ne {m : RevMap} {r u u2 : Nat}
    {es : List (DirsAndFileName × Nat)}
    (hlk : lookupRev m r = some (u2, es)) (hne : u2 ≠ u)
    (e : DirsAndFileName × Nat) :
    insertFile m r u e = .error (.multipleTransactionsFailure r
      (if u2 < u then u2 else u) (if u2 < u then u else u2)) := by
  induction m with
  | nil => exact Option.noConfusion hlk
  | cons y t ih =>
    obtain ⟨r3, u3, es3⟩ := y
    rw [lookupRev_cons] at hlk
    rw [insertFile_cons]
    by_cases hr : r3 = r
    · rw [if_pos hr] at hlk
      rw [if_pos hr]
      have h5 : u3 = u2 ∧ es3 = es := by simpa using hlk
      rw [h5.1, if_neg hne]
    · rw [if_neg hr] at hlk
      rw [if_neg hr, ih hlk]

theorem insertFile_found_eq {m : RevMap} {r u : Nat}
    {es : List (DirsAndFileName × Nat)}
    (hlk : lookupRev m r = some (u, es)) (e : DirsAndFileName × Nat) :
    ∃ m2, insertFile m r u e = .ok m2 := by
  induction m with
  | nil => exact Option.noConfusion hlk
  | cons y t ih =>
    obtain ⟨r3, u3, es3⟩ := y
    rw [lookupRev_cons] at hlk
    rw [insertFile_cons]
    by_cases hr : r3 = r
    · rw [if_pos hr] at hlk
      rw [if_pos hr]
      have h5 : u3 = u ∧ es3 = es := by simpa using hlk
      rw [if_pos h5.1]
      exact ⟨_, rfl⟩
    · rw [if_neg hr] at hlk
      rw [if_neg hr]
      obtain ⟨t2, ht2⟩ := ih hlk
      rw [ht2]
      exact ⟨_, rfl⟩

theorem insertFile_error {m : RevMap} {r u : Nat}
    {e : DirsAndFileName × Nat} {err : RebuildError}
    (h : insertFile m r u e = .error err) :
    ∃ u2 es, lookupRev m r = some (u2, es) ∧ u2 ≠ u ∧
      err = .multipleTransactionsFailure r
        (if u2 < u then u2 else u) (if u2 < u then u else u2) := by
  induction m with
  | nil => exact Except.noConfusion h
  | cons y t ih =>
    obtain ⟨r3, u3, es3⟩ := y
    rw [insertFile_cons] at h
    by_cases hr : r3 = r
    · rw [if_pos hr] at h
      by_cases hu : u3 = u
      · rw [if_pos hu] at h
        exact Except.noConfusion h
      · rw [if_neg hu] at h
        injection h with h2
        exact ⟨u3, es3, by rw [lookupRev_cons, if_pos hr], hu, h2.symm⟩
    · rw [if_neg hr] at h
      cases ht : insertFile t r u e with
      | ok t2 => rw [ht] at h; exact Except.noConfusion h
      | error err2 =>
        rw [ht] at h
        injection h with h2
        subst h2
        obtain ⟨u2, es, hlk, hne, herr⟩ := ih ht
        exact ⟨u2, es, by rw [lookupRev_cons, if_neg hr]; exact hlk, hne,
          herr⟩

theorem rebuild_catalog_of_collect_error {files : List ScannedFile}
    {flag : Bool} {e : RebuildError}
    (h : collect_revisions files flag = .error e) :
    rebuild_catalog files flag = .error e := by
  simp only [rebuild_catalog, h]

theorem multi_message_starts (r u1 u2 : Nat) :
    strStartsWith (RebuildError.message
        (.multipleTransactionsFailure r u1 u2))
      "Found multiple transaction for revision" = true := by
  simp only [RebuildError.message, strStartsWith, String.data_append]
  rw [List.isPrefixOf_iff_prefix]
  simp only [List.append_assoc]
  exact List.IsPrefix.trans (by decide) (List.prefix_append _ _)

theorem revision_zero_message_starts (p : DirsAndFileName) :
    strStartsWith (RebuildError.message (.revisionZeroFailure p))
      "Internal error: Revision cannot be zero" = true := by
  simp only [RebuildError.message, strStartsWith, String.data_append]
  rw [List.isPrefixOf_iff_prefix]
  exact List.IsPrefix.trans (by decide) (List.prefix_append _ _)

theorem collectGo_conflict (files0 : List ScannedFile) (flag : Bool)
    (files : List ScannedFile) :
    ∀ (m : RevMap),
      (∀ f ∈ files, f ∈ files0) →
      (∀ f ∈ files, is_parquet f.path = true → readableNonzeroB f = true) →
      soundFor files0 m →
      conflictL m files →
      ∃ r u1 u2,
        collectGo flag m files =
            .error (.multipleTransactionsFailure r u1 u2) ∧
          u1 < u2 ∧
          (∃ f ∈ files0, is_parquet f.path = true ∧
            readsOkB f r u1 = true) ∧
          (∃ g ∈ files0, is_parquet g.path = true ∧
            readsOkB g r u2 = true) := by
  induction files with
  | nil =>
    intro m hsub hok hsound hconf
    exfalso
    rcases hconf with ⟨r, u, es, _, g, hg, _⟩ | ⟨f, hf, _⟩
    · simp at hg
    · simp at hf
  | cons f rest ih =>
    intro m hsub hok hsound hconf
    by_cases hp : is_parquet f.path = true
    · have hnz := hok f (List.mem_cons_self f rest) hp
      cases hread : f.read with
      | metadataReadFailure =>
        rw [readableNonzeroB, hread] at hnz
        exact Bool.noConfusion hnz
      | storeReadFailure =>
        rw [readableNonzeroB, hread] at hnz
        exact Bool.noConfusion hnz
      | ok iox md =>
        have hz : iox.transaction_revision_counter ≠ 0 := by
          rw [readableNonzeroB, hread] at hnz
          simpa using hnz
        have hfok : readsOkB f iox.transaction_revision_counter
            iox.transaction_uuid = true := by
          rw [readsOkB, hread]
          simp
        cases hins : insertFile m iox.transaction_revision_counter
            iox.transaction_uuid (f.path, md) with
        | error err =>
          obtain ⟨u2, es, hlk, hne, herr⟩ := insertFile_error hins
          obtain ⟨g, hg, hgp, hgok⟩ := hsound _ _ _ hlk
          refine ⟨iox.transaction_revision_counter,
            if u2 < iox.transaction_uuid then u2 else iox.transaction_uuid,
            if u2 < iox.transaction_uuid then iox.transaction_uuid else u2,
            ?_, ?_, ?_, ?_⟩
          · rw [collectGo_cons, if_pos hp]
            simp only [hread]
            rw [if_neg hz]
            simp only [hins, herr]
          · by_cases hlt : u2 < iox.transaction_uuid
            · rw [if_pos hlt, if_pos hlt]; exact hlt
            · rw [if_neg hlt, if_neg hlt]; omega
          · by_cases hlt : u2 < iox.transaction_uuid
            · rw [if_pos hlt]
              exact ⟨g, hg, hgp, hgok⟩
            · rw [if_neg hlt]
              exact ⟨f, hsub f (List.mem_cons_self f rest), hp, hfok⟩
          · by_cases hlt : u2 < iox.transaction_uuid
            · rw [if_pos hlt]
              exact ⟨f, hsub f (List.mem_cons_self f rest), hp, hfok⟩
            · rw [if_neg hlt]
              exact ⟨g, hg, hgp, hgok⟩
        | ok m2 =>
          have hstep : collectGo flag m (f :: rest) =
              collectGo flag m2 rest := by
            rw [collectGo_cons, if_pos hp]
            simp only [hread]
            rw [if_neg hz]
            simp only [hins]
          have hsound2 : soundFor files0 m2 := by
            intro r2 u2 es2 hlk2
            by_cases hr2 : r2 = iox.transaction_revision_counter
            · subst hr2
              obtain ⟨es3, hes3⟩ := insertFile_lookup_self hins
              rw [hlk2] at hes3
              have h5 : u2 = iox.transaction_uuid ∧ es2 = es3 := by
                simpa using hes3
              rw [h5.1]
              exact ⟨f, hsub f (List.mem_cons_self f rest), hp, hfok⟩
            · rw [insertFile_lookup_other hins r2 hr2] at hlk2
              exact hsound r2 u2 es2 hlk2
          have hconf2 : conflictL m2 rest := by
            rcases hconf with ⟨r0, u0, es0, hlk0, g, hg, hgp, ug, hgok, hgne⟩ |
              ⟨f2, hf2, g, hg, hpair⟩
            · -- an existing group conflicts with some file
              rcases List.mem_cons.mp hg with hgf | hgrest
              · -- the conflicting file is f itself: insert would have failed
                exfalso
                subst hgf
                rw [readsOkB, hread] at hgok
                have h6 : iox.transaction_revision_counter = r0 ∧
                    iox.transaction_uuid = ug := by
                  constructor
                  · have := (Bool.and_eq_true _ _).mp hgok
                    exact beq_iff_eq.mp this.1
                  · have := (Bool.and_eq_true _ _).mp hgok
                    exact beq_iff_eq.mp this.2
                have h7 : u0 = iox.transaction_uuid := by
                  apply insertFile_ok_first hins u0 es0
                  rw [h6.1]
                  exact hlk0
                exact hgne (by rw [← h6.2, ← h7])
              · -- the conflicting file is still to scan
                left
                by_cases hr0 : r0 = iox.transaction_revision_counter
                · subst hr0
                  have h7 : u0 = iox.transaction_uuid :=
                    insertFile_ok_first hins u0 es0 hlk0
                  obtain ⟨es3, hes3⟩ := insertFile_lookup_self hins
                  exact ⟨iox.transaction_revision_counter,
                    iox.transaction_uuid, es3, hes3, g, hgrest,
                    hgp, ug, hgok, by rw [← h7]; exact hgne⟩
                · exact ⟨r0, u0, es0,
                    by rw [insertFile_lookup_other hins r0 hr0]; exact hlk0,
                    g, hgrest, hgp, ug, hgok, hgne⟩
            · -- two files conflict
              rcases List.mem_cons.mp hf2 with hf2f | hf2rest <;>
                rcases List.mem_cons.mp hg with hgf | hgrest
              · -- both are f: impossible, a file conflicts only with a
                -- different uuid
                exfalso
                subst hf2f
                subst hgf
                rw [conflictPairB, hread] at hpair
                simp at hpair
              · -- f conflicts with a later file g
                left
                subst hf2f
                rw [conflictPairB, hread] at hpair
                cases hgread : g.read with
                | metadataReadFailure => rw [hgread] at hpair; simp at hpair
                | storeReadFailure => rw [hgread] at hpair; simp at hpair
                | ok iox2 md2 =>
                  rw [hgread] at hpair
                  simp only [Bool.and_eq_true, beq_iff_eq, bne_iff_ne,
                    ne_eq] at hpair
                  obtain ⟨⟨_, hgp2⟩, hrev, hune⟩ := hpair
                  obtain ⟨es3, hes3⟩ := insertFile_lookup_self hins
                  refine ⟨iox.transaction_revision_counter,
                    iox.transaction_uuid, es3, hes3, g, hgrest, hgp2,
                    iox2.transaction_uuid, ?_, ?_⟩
                  · rw [readsOkB, hgread]
                    simp [hrev]
                  · exact fun hcon => hune (hcon ▸ rfl)
              · -- a later file conflicts with f
                left
                subst hgf
                rw [conflictPairB, hread] at hpair
                cases hf2read : f2.read with
                | metadataReadFailure => rw [hf2read] at hpair; simp at hpair
                | storeReadFailure => rw [hf2read] at hpair; simp at hpair
                | ok iox2 md2 =>
                  rw [hf2read] at hpair
                  simp only [Bool.and_eq_true, beq_iff_eq, bne_iff_ne,
                    ne_eq] at hpair
                  obtain ⟨⟨hf2p, _⟩, hrev, hune⟩ := hpair
                  obtain ⟨es3, hes3⟩ := insertFile_lookup_self hins
                  refine ⟨iox.transaction_revision_counter,
                    iox.transaction_uuid, es3, hes3, f2, hf2rest, hf2p,
                    iox2.transaction_uuid, ?_, ?_⟩
                  · rw [readsOkB, hf2read]
                    simp [hrev]
                  · exact fun hcon => hune hcon
              · right
                exact ⟨f2, hf2rest, g, hgrest, hpair⟩
          rw [hstep]
          exact ih m2 (fun x hx => hsub x (List.mem_cons_of_mem f hx))
            (fun x hx => hok x (List.mem_cons_of_mem f hx)) hsound2 hconf2
    · have hstep : collectGo flag m (f :: rest) = collectGo flag m rest := by
        rw [collectGo_cons, if_neg hp]
      have hconf2 : conflictL m rest := by
        rcases hconf with ⟨r0, u0, es0, hlk0, g, hg, hgp, ug, hgok, hgne⟩ |
          ⟨f2, hf2, g, hg, hpair⟩
        · rcases List.mem_cons.mp hg with hgf | hgrest
          · exact absurd (hgf ▸ hgp) hp
          · exact Or.inl ⟨r0, u0, es0, hlk0, g, hgrest, hgp, ug, hgok, hgne⟩
        · have hf2p : is_parquet f2.path = true := by
            rw [conflictPairB] at hpair
            exact ((Bool.and_eq_true _ _).mp
              ((Bool.and_eq_true _ _).mp hpair).1).1
          have hgp : is_parquet g.path = true := by
            rw [conflictPairB] at hpair
            exact ((Bool.and_eq_true _ _).mp
              ((Bool.and_eq_true _ _).mp hpair).1).2
          rcases List.mem_cons.mp hf2 with hf2f | hf2rest
          · exact absurd (hf2f ▸ hf2p) hp
          · rcases List.mem_cons.mp hg with hgf | hgrest
            · exact absurd (hgf ▸ hgp) hp
            · exact Or.inr ⟨f2, hf2rest, g, hgrest, hpair⟩
      rw [hstep]
      exact ih m (fun x hx => hsub x (List.mem_cons_of_mem f hx))
        (fun x hx => hok x (List.mem_cons_of_mem f hx)) hsound hconf2

/-- C4 (divergence detection): when the scanned chunk files are readable
with non-zero revisions and two of them share a revision but disagree on
the transaction uuid, rebuild fails with `MultipleTransactionsFailure`
reporting a revision carried by two such files, the two uuids sorted
ascending, and an error message beginning
`Found multiple transaction for revision`. -/
theorem divergence_detection (files : List ScannedFile) (flag : Bool)
    (hok : ∀ f ∈ files, is_parquet f.path = true →
      readableNonzeroB f = true)
    (hconf : ∃ f ∈ files, ∃ g ∈ files, conflictPairB f g = true) :
    ∃ r u1 u2,
      rebuild_catalog files flag =
          .error (.multipleTransactionsFailure r u1 u2) ∧
        u1 < u2 ∧
        (∃ f ∈ files, is_parquet f.path = true ∧ readsOkB f r u1 = true) ∧
        (∃ g ∈ files, is_parquet g.path = true ∧ readsOkB g r u2 = true) ∧
        strStartsWith (RebuildError.message
            (.multipleTransactionsFailure r u1 u2))
          "Found multiple transaction for revision" = true := by
  obtain ⟨r, u1, u2, hcol, hlt, hf, hg⟩ :=
    collectGo_conflict files flag files [] (fun x hx => hx) hok
      (fun r u es h => Option.noConfusion h) (Or.inr hconf)
  exact ⟨r, u1, u2, rebuild_catalog_of_collect_error hcol, hlt, hf, hg,
    multi_message_starts r u1 u2⟩

/-- Witness for C4: two parquet files at revision 1 with uuids 1 and 2. -/
theorem divergence_detection_witness :
    ∃ r u1 u2,
      rebuild_catalog
          [ScannedFile.mk (DirsAndFileName.mk ["a"] (some "t.parquet"))
            (ReadResult.ok (IoxMetadata.mk 1 1) 0),
           ScannedFile.mk (DirsAndFileName.mk ["b"] (some "t.parquet"))
            (ReadResult.ok (IoxMetadata.mk 1 2) 0)] false =
          .error (.multipleTransactionsFailure r u1 u2) ∧
        u1 < u2 ∧
        (∃ f ∈ [ScannedFile.mk (DirsAndFileName.mk ["a"]
            (some "t.parquet")) (ReadResult.ok (IoxMetadata.mk 1 1) 0),
           ScannedFile.mk (DirsAndFileName.mk ["b"] (some "t.parquet"))
            (ReadResult.ok (IoxMetadata.mk 1 2) 0)],
          is_parquet f.path = true ∧ readsOkB f r u1 = true) ∧
        (∃ g ∈ [ScannedFile.mk (DirsAndFileName.mk ["a"]
            (some "t.parquet")) (ReadResult.ok (IoxMetadata.mk 1 1) 0),
           ScannedFile.mk (DirsAndFileName.mk ["b"] (some "t.parquet"))
            (ReadResult.ok (IoxMetadata.mk 1 2) 0)],
          is_parquet g.path = true ∧ readsOkB g r u2 = true) ∧
        strStartsWith (RebuildError.message
            (.multipleTransactionsFailure r u1 u2))
          "Found multiple transaction for revision" = true :=
  divergence_detection
    [ScannedFile.mk (DirsAndFileName.mk ["a"] (some "t.parquet"))
      (ReadResult.ok (IoxMetadata.mk 1 1) 0),
     ScannedFile.mk (DirsAndFileName.mk ["b"] (some "t.parquet"))
      (ReadResult.ok (IoxMetadata.mk 1 2) 0)] false
    (by decide) (by decide)

theorem collectGo_zero (files0 : List ScannedFile) (flag : Bool)
    (files : List ScannedFile) :
    ∀ (m : RevMap),
      (∀ f ∈ files, f ∈ files0) →
      (∀ f ∈ files, is_parquet f.path = true → isReadableB f = true) →
      (∀ f ∈ files0, ∀ g ∈ files0, conflictPairB f g = false) →
      soundFor files0 m →
      (∃ f ∈ files, is_parquet f.path = true ∧ readsZeroB f = true) →
      ∃ p, collectGo flag m files = .error (.revisionZeroFailure p) ∧
        ∃ f ∈ files0, is_parquet f.path = true ∧ readsZeroB f = true ∧
          f.path = p := by
  induction files with
  | nil =>
    intro m _ _ _ _ hzero
    exfalso
    obtain ⟨f, hf, _⟩ := hzero
    simp at hf
  | cons f rest ih =>
    intro m hsub hread hnc hsound hzero
    by_cases hp : is_parquet f.path = true
    · have hrd := hread f (List.mem_cons_self f rest) hp
      cases hfr : f.read with
      | metadataReadFailure =>
        rw [isReadableB, hfr] at hrd
        exact Bool.noConfusion hrd
      | storeReadFailure =>
        rw [isReadableB, hfr] at hrd
        exact Bool.noConfusion hrd
      | ok iox md =>
        by_cases hz : iox.transaction_revision_counter = 0
        · refine ⟨f.path, ?_,
            f, hsub f (List.mem_cons_self f rest), hp, ?_, rfl⟩
          · rw [collectGo_cons, if_pos hp]
            simp only [hfr]
            rw [if_pos hz]
          · rw [readsZeroB, hfr]
            simp [hz]
        · have hfok : readsOkB f iox.transaction_revision_counter
              iox.transaction_uuid = true := by
            rw [readsOkB, hfr]
            simp
          have hins : ∃ m2, insertFile m iox.transaction_revision_counter
              iox.transaction_uuid (f.path, md) = .ok m2 := by
            cases hlk : lookupRev m iox.transaction_revision_counter with
            | none =>
              exact ⟨_, insertFile_vacant (lookupRev_none_forall hlk) _ _⟩
            | some pr =>
              obtain ⟨u0, es0⟩ := pr
              obtain ⟨g, hg, hgp, hgok⟩ := hsound _ _ _ hlk
              cases hgr : g.read with
              | metadataReadFailure =>
                rw [readsOkB, hgr] at hgok
                exact Bool.noConfusion hgok
              | storeReadFailure =>
                rw [readsOkB, hgr] at hgok
                exact Bool.noConfusion hgok
              | ok iox2 md2 =>
                rw [readsOkB, hgr] at hgok
                simp only [Bool.and_eq_true, beq_iff_eq] at hgok
                have hcp := hnc f (hsub f (List.mem_cons_self f rest)) g hg
                rw [conflictPairB, hp, hgp, hfr, hgr] at hcp
                simp only [hgok.1, Bool.true_and, Bool.and_eq_false_iff,
                  beq_eq_false_iff_ne, ne_eq, bne_eq_false_iff_eq] at hcp
                have hcp2 : iox.transaction_uuid = iox2.transaction_uuid := by
                  rcases hcp with h1 | h1
                  · exact absurd trivial h1
                  · exact h1
                have hu : u0 = iox.transaction_uuid := by
                  rw [← hgok.2]
                  exact hcp2.symm
                rw [hu] at hlk
                exact insertFile_found_eq hlk _
          obtain ⟨m2, hm2⟩ := hins
          have hstep : collectGo flag m (f :: rest) =
              collectGo flag m2 rest := by
            rw [collectGo_cons, if_pos hp]
            simp only [hfr]
            rw [if_neg hz]
            simp only [hm2]
          have hsound2 : soundFor files0 m2 := by
            intro r2 u2 es2 hlk2
            by_cases hr2 : r2 = iox.transaction_revision_counter
            · subst hr2
              obtain ⟨es3, hes3⟩ := insertFile_lookup_self hm2
              rw [hlk2] at hes3
              have h5 : u2 = iox.transaction_uuid ∧ es2 = es3 := by
                simpa using hes3
              rw [h5.1]
              exact ⟨f, hsub f (List.mem_cons_self f rest), hp, hfok⟩
            · rw [insertFile_lookup_other hm2 r2 hr2] at hlk2
              exact hsound r2 u2 es2 hlk2
          have hzero2 : ∃ f2 ∈ rest, is_parquet f2.path = true ∧
              readsZeroB f2 = true := by
            obtain ⟨f2, hf2, hf2p, hf2z⟩ := hzero
            rcases List.mem_cons.mp hf2 with h1 | h1
            · exfalso
              subst h1
              rw [readsZeroB, hfr] at hf2z
              exact hz (by simpa using hf2z)
            · exact ⟨f2, h1, hf2p, hf2z⟩
          rw [hstep]
          exact ih m2 (fun x hx => hsub x (List.mem_cons_of_mem f hx))
            (fun x hx => hread x (List.mem_cons_of_mem f hx)) hnc hsound2
            hzero2
    · have hstep : collectGo flag m (f :: rest) = collectGo flag m rest := by
        rw [collectGo_cons, if_neg hp]
      have hzero2 : ∃ f2 ∈ rest, is_parquet f2.path = true ∧
          readsZeroB f2 = true := by
        obtain ⟨f2, hf2, hf2p, hf2z⟩ := hzero
        rcases List.mem_cons.mp hf2 with h1 | h1
        · exact absurd (h1 ▸ hf2p) hp
        · exact ⟨f2, h1, hf2p, hf2z⟩
      rw [hstep]
      exact ih m (fun x hx => hsub x (List.mem_cons_of_mem f hx))
        (fun x hx => hread x (List.mem_cons_of_mem f hx)) hnc hsound hzero2

/-- C5 (zero-revision rejection): when the scanned chunk files are readable
and conflict-free and some parquet file advertises the reserved revision
`0`, rebuild fails — with either flag value — with `RevisionZeroFailure`
naming such a file's path, and an error message beginning
`Internal error: Revision cannot be zero`. -/
theorem zero_revision_rejection (files : List ScannedFile) (flag : Bool)
    (hread : ∀ f ∈ files, is_parquet f.path = true → isReadableB f = true)
    (hnc : ∀ f ∈ files, ∀ g ∈ files, conflictPairB f g = false)
    (hzero : ∃ f ∈ files, is_parquet f.path = true ∧ readsZeroB f = true) :
    ∃ p, rebuild_catalog files flag = .error (.revisionZeroFailure p) ∧
      (∃ f ∈ files, is_parquet f.path = true ∧ readsZeroB f = true ∧
        f.path = p) ∧
      strStartsWith (RebuildError.message (.revisionZeroFailure p))
        "Internal error: Revision cannot be zero" = true := by
  obtain ⟨p, hcol, hprov⟩ :=
    collectGo_zero files flag files [] (fun x hx => hx) hread hnc
      (fun r u es h => Option.noConfusion h) hzero
  exact ⟨p, rebuild_catalog_of_collect_error hcol, hprov,
    revision_zero_message_starts p⟩

/-- Witness for C5: a single parquet file advertising revision 0, with the
flag of the repository's own test (`false`). -/
theorem zero_revision_rejection_witness :
    ∃ p, rebuild_catalog
        [ScannedFile.mk (DirsAndFileName.mk ["z"] (some "t.parquet"))
          (ReadResult.ok (IoxMetadata.mk 0 4) 0)] false =
        .error (.revisionZeroFailure p) ∧
      (∃ f ∈ [ScannedFile.mk (DirsAndFileName.mk ["z"] (some "t.parquet"))
          (ReadResult.ok (IoxMetadata.mk 0 4) 0)],
        is_parquet f.path = true ∧ readsZeroB f = true ∧ f.path = p) ∧
      strStartsWith (RebuildError.message (.revisionZeroFailure p))
        "Internal error: Revision cannot be zero" = true :=
  zero_revision_rejection
    [ScannedFile.mk (DirsAndFileName.mk ["z"] (some "t.parquet"))
      (ReadResult.ok (IoxMetadata.mk 0 4) 0)] false
    (by decide) (by decide) (by decide)

theorem collectGo_flag_filter (files : List ScannedFile) :
    ∀ m, collectGo true m files =
      collectGo false m (files.filter fun f => !isMetaFailB f) := by
  induction files with
  | nil => intro m; rfl
  | cons f rest ih =>
    intro m
    by_cases hmf : isMetaFailB f = true
    · have hfr : f.read = ReadResult.metadataReadFailure := by
        simpa [isMetaFailB] using hmf
      have hfilter : (f :: rest).filter (fun f => !isMetaFailB f) =
          rest.filter (fun f => !isMetaFailB f) := by
        simp [List.filter_cons, hmf]
      rw [hfilter, collectGo_cons]
      by_cases hp : is_parquet f.path = true
      · rw [if_pos hp]
        simp only [hfr]
        rw [if_pos trivial]
        exact ih m
      · rw [if_neg hp]
        exact ih m
    · have hmf2 : isMetaFailB f = false := by simpa using hmf
      have hkeep : (f :: rest).filter (fun f => !isMetaFailB f) =
          f :: rest.filter (fun f => !isMetaFailB f) := by
        simp [List.filter_cons, hmf2]
      rw [hkeep, collectGo_cons, collectGo_cons]
      by_cases hp : is_parquet f.path = true
      · rw [if_pos hp, if_pos hp]
        cases hfr : f.read with
        | metadataReadFailure =>
          exact absurd (by simp [isMetaFailB, hfr]) hmf
        | storeReadFailure => simp only [hfr]
        | ok iox md =>
          simp only [hfr]
          by_cases hz : iox.transaction_revision_counter = 0
          · rw [if_pos hz, if_pos hz]
          · rw [if_neg hz, if_neg hz]
            cases hins : insertFile m iox.transaction_revision_counter
                iox.transaction_uuid (f.path, md) with
            | ok m2 =>
              simp only [hins]
              exact ih m2
            | error err => simp only [hins]
      · rw [if_neg hp, if_neg hp]
        exact ih m

theorem collectGo_true_no_meta (files : List ScannedFile) :
    ∀ m p, collectGo true m files ≠ .error (.metadataReadFailure p) := by
  induction files with
  | nil => intro m p h; exact Except.noConfusion h
  | cons f rest ih =>
    intro m p h
    rw [collectGo_cons] at h
    by_cases hp : is_parquet f.path = true
    · rw [if_pos hp] at h
      cases hfr : f.read with
      | metadataReadFailure =>
        simp only [hfr] at h
        rw [if_pos trivial] at h
        exact ih m p h
      | storeReadFailure =>
        simp only [hfr] at h
        injection h with h2
        exact RebuildError.noConfusion h2
      | ok iox md =>
        simp only [hfr] at h
        by_cases hz : iox.transaction_revision_counter = 0
        · rw [if_pos hz] at h
          injection h with h2
          exact RebuildError.noConfusion h2
        · rw [if_neg hz] at h
          cases hins : insertFile m iox.transaction_revision_counter
              iox.transaction_uuid (f.path, md) with
          | ok m2 =>
            simp only [hins] at h
            exact ih m2 p h
          | error err =>
            simp only [hins] at h
            injection h with h2
            obtain ⟨u2, es, _, _, herr⟩ := insertFile_error hins
            exact RebuildError.noConfusion (herr ▸ h2)
    · rw [if_neg hp] at h
      exact ih m p h

/-- C6 (ignore-flag scope): running rebuild with
`ignore_metadata_read_failure = true` behaves exactly as running it with
the flag off on the listing with the metadata-read-failure files removed —
so precisely those files are downgraded to a skip — and no error returned
under the flag is ever a metadata-read failure; every other failure
(store read, revision zero, multiple transactions) is still returned. -/
theorem ignore_flag_scope (files : List ScannedFile) :
    rebuild_catalog files true =
      rebuild_catalog (files.filter fun f => !isMetaFailB f) false ∧
    ∀ e, rebuild_catalog files true = .error e →
      ∀ p, e ≠ RebuildError.metadataReadFailure p := by
  constructor
  · show (match collect_revisions files true with
      | .error e => .error e
      | .ok revisions =>
        match maxKey revisions with
        | none => .ok PreservedCatalog.new_empty
        | some maxRev =>
          .ok (replayRange revisions PreservedCatalog.new_empty 1 maxRev)) =
      rebuild_catalog (files.filter fun f => !isMetaFailB f) false
    rw [show collect_revisions files true =
      collect_revisions (files.filter fun f => !isMetaFailB f) false from
      collectGo_flag_filter files []]
    rfl
  · intro e he p hcon
    subst hcon
    cases hc : collect_revisions files true with
    | error e2 =>
      simp only [rebuild_catalog, hc] at he
      injection he with h2
      rw [h2] at hc
      exact collectGo_true_no_meta files [] p hc
    | ok m =>
      simp only [rebuild_catalog, hc] at he
      cases hmk : maxKey m with
      | none =>
        simp only [hmk] at he
        exact Except.noConfusion he
      | some mx =>
        simp only [hmk] at he
        exact Except.noConfusion he

/-- Witness for C6: a store-read failure is still returned with the flag
set, and is not a metadata-read failure. -/
theorem ignore_flag_scope_witness :
    RebuildError.readFailure ≠
      RebuildError.metadataReadFailure (DirsAndFileName.mk [] none) :=
  (ignore_flag_scope
      [ScannedFile.mk (DirsAndFileName.mk ["a"] (some "t.parquet"))
        ReadResult.storeReadFailure]).2
    RebuildError.readFailure (by decide) (DirsAndFileName.mk [] none)

/-! ### The embedded chunk metadata codec -/

/-- Modelled from the spec: the well-known footer key (`METADATA_KEY` in
`metadata.rs`, which is not among the sources); its concrete value is
immaterial to the claims. -/
def METADATA_KEY : String := "IOX:metadata"

/-- Modelled from the spec: the textual (JSON) serialization of
`IoxMetadata` as produced for the writer properties — an object with the
two fields in declaration order, the revision as a number and the uuid as a
string (rendered in decimal in this model of the uuid type). -/
def encodeIox (m : IoxMetadata) : String :=
  "\x7b\"transaction_revision_counter\":" ++
    natToString m.transaction_revision_counter ++
    ",\"transaction_uuid\":\"" ++ natToString m.transaction_uuid ++
    "\"\x7d"

/-- Strip an expected literal prefix, returning the remainder. -/
def dropLead : List Char → List Char → Option (List Char)
  | [], l => some l
  | _ :: _, [] => none
  | p :: ps, c :: cs => if c = p then dropLead ps cs else none

/-- Parse a non-empty run of leading ASCII digits as a number. -/
def parseNatPart (l : List Char) : Option (Nat × List Char) :=
  let ds := l.takeWhile Char.isDigit
  if ds = [] then none
  else some (ds.foldl (fun a c => 10 * a + charDigitVal c) 0,
    l.dropWhile Char.isDigit)

/-- Modelled from the spec: decoding the serialized metadata back into
`IoxMetadata` (the codec of §4.3), accepting exactly the object shape the
encoder produces. -/
def decodeIoxChars (l : List Char) : Option IoxMetadata :=
  match dropLead ("\x7b\"transaction_revision_counter\":").data l with
  | none => none
  | some l1 =>
    match parseNatPart l1 with
    | none => none
    | some (r, l2) =>
      match dropLead (",\"transaction_uuid\":\"").data l2 with
      | none => none
      | some l3 =>
        match parseNatPart l3 with
        | none => none
        | some (u, l4) =>
          match dropLead ("\"\x7d").data l4 with
          | none => none
          | some l5 => if l5 = [] then some ⟨r, u⟩ else none

/-- Modelled from the spec: `decode` of the chunk metadata codec. -/
def decodeIox (s : String) : Option IoxMetadata := decodeIoxChars s.data

/-- The key/value metadata handed to the parquet writer by
`Storage::parquet_stream_to_bytes`: exactly one entry, `METADATA_KEY`
mapped to the serialized metadata. -/
def writerKeyValueMetadata (metadata : IoxMetadata) :
    List (String × Option String) :=
  [(METADATA_KEY, some (encodeIox metadata))]

/-- Modelled from the spec: the parquet library contract (§6) — the footer
of the produced file exposes exactly the key/value metadata handed to the
writer. -/
def footerKeyValueOf (metadata : IoxMetadata) :
    List (String × Option String) :=
  writerKeyValueMetadata metadata

/-- Errors of the metadata extraction: a missing `METADATA_KEY` entry is
distinct from a malformed value (§4.3). -/
inductive MetadataError where
  | missing
  | malformed
deriving DecidableEq

/-- Modelled from the spec: extracting the IOx metadata from a footer's
key/value list — find the entry whose key equals `METADATA_KEY`, then
decode its value. -/
def read_iox_from_footer (kv : List (String × Option String)) :
    Except MetadataError IoxMetadata :=
  match kv.find? (fun e => e.1 == METADATA_KEY) with
  | none => .error .missing
  | some (_, none) => .error .malformed
  | some (_, some v) =>
    match decodeIox v with
    | none => .error .malformed
    | some m => .ok m

theorem dropLead_append (p rest : List Char) :
    dropLead p (p ++ rest) = some rest := by
  induction p with
  | nil => rfl
  | cons c ps ih =>
    show (if c = c then dropLead ps (ps ++ rest) else none) = some rest
    rw [if_pos rfl, ih]

theorem takeWhile_dropWhile_append {p : Char → Bool} (a : List Char)
    (rest : List Char) (ha : ∀ c ∈ a, p c = true)
    (hrest : ∀ c, rest.head? = some c → p c = false) :
    (a ++ rest).takeWhile p = a ∧ (a ++ rest).dropWhile p = rest := by
  induction a with
  | nil =>
    cases rest with
    | nil => exact ⟨rfl, rfl⟩
    | cons c cs =>
      have hc := hrest c rfl
      constructor
      · simp [List.takeWhile_cons, hc]
      · simp [List.dropWhile_cons, hc]
  | cons x a ih =>
    have hx : p x = true := ha x (List.mem_cons_self x a)
    have hrec := ih (fun c hc => ha c (List.mem_cons_of_mem x hc))
    constructor
    · simp [List.takeWhile_cons, hx, hrec.1]
    · simp [List.dropWhile_cons, hx, hrec.2]

theorem parseNatPart_natChars (n : Nat) (rest : List Char)
    (hrest : ∀ c, rest.head? = some c → c.isDigit = false) :
    parseNatPart (natChars n ++ rest) = some (n, rest) := by
  have hall : ∀ c ∈ natChars n, c.isDigit = true := by
    have := natChars_all_digits n
    rw [List.all_eq_true] at this
    exact this
  have h := takeWhile_dropWhile_append (natChars n) rest hall hrest
  unfold parseNatPart
  rw [h.1, h.2, if_neg (natChars_ne_nil n), foldl_natChars]

theorem decodeIox_encodeIox (m : IoxMetadata) :
    decodeIox (encodeIox m) = some m := by
  obtain ⟨r, u⟩ := m
  show decodeIoxChars (encodeIox ⟨r, u⟩).data = some ⟨r, u⟩
  have hdata : (encodeIox ⟨r, u⟩).data =
      ("\x7b\"transaction_revision_counter\":").data ++
        (natChars r ++ ((",\"transaction_uuid\":\"").data ++
          (natChars u ++ ("\"\x7d").data))) := by
    simp only [encodeIox, String.data_append, List.append_assoc]
    rfl
  rw [hdata]
  unfold decodeIoxChars
  simp only [dropLead_append]
  have hp1 : parseNatPart (natChars r ++ ((",\"transaction_uuid\":\"").data ++
      (natChars u ++ ("\"\x7d").data))) =
      some (r, (",\"transaction_uuid\":\"").data ++
        (natChars u ++ ("\"\x7d").data)) :=
    parseNatPart_natChars r _ (fun c hc => by
      have h8 : (some ',' : Option Char) = some c := hc
      have h9 : ',' = c := by injection h8
      rw [← h9]
      decide)
  simp only [hp1]
  simp only [dropLead_append]
  have hp2 : parseNatPart (natChars u ++ ("\"\x7d").data) =
      some (u, ("\"\x7d").data) :=
    parseNatPart_natChars u _ (fun c hc => by
      have h8 : (some '"' : Option Char) = some c := hc
      have h9 : '"' = c := by injection h8
      rw [← h9]
      decide)
  simp only [hp2]
  have hd3 : dropLead ("\"\x7d" : String).data ("\"\x7d" : String).data =
      some [] := by
    simpa using dropLead_append ("\"\x7d" : String).data []
  simp only [hd3]
  rw [if_pos trivial]

/-- C9 (metadata round-trip): writing a chunk embeds exactly one key/value
entry in the footer — key `METADATA_KEY`, value the textual serialization
of the metadata — and reading the footer of the produced file and decoding
that entry yields the metadata back, byte-identically. -/
theorem metadata_round_trip (m : IoxMetadata) :
    (writerKeyValueMetadata m).length = 1 ∧
    writerKeyValueMetadata m = [(METADATA_KEY, some (encodeIox m))] ∧
    decodeIox (encodeIox m) = some m ∧
    read_iox_from_footer (footerKeyValueOf m) = .ok m := by
  refine ⟨rfl, rfl, decodeIox_encodeIox m, ?_⟩
  show read_iox_from_footer [(METADATA_KEY, some (encodeIox m))] = .ok m
  unfold read_iox_from_footer
  have hfind : List.find? (fun e => e.1 == METADATA_KEY)
      [(METADATA_KEY, some (encodeIox m))] =
      some (METADATA_KEY, some (encodeIox m)) := by
    simp [List.find?]
  simp only [hfind]
  simp only [decodeIox_encodeIox m]


/-! ### Writer atomicity (`Storage::write_to_object_store`, storage.rs) -/

/-- Outcomes of the parquet-writer collaborators used by
`parquet_stream_to_bytes` (storage.rs): `ArrowWriter::try_new`,
`writer.write` on each record batch, `writer.close`, and
`MemWriter::into_inner` (the serialized buffer, or `none` when another
reference to the writer is still alive). Record batches are abstracted to
identifiers and the serialized buffer to a byte list. -/
structure ParquetLib where
  open_ok : Bool
  write_ok : Nat → Bool
  close_ok : Bool
  into_inner : Option (List Nat)

/-- The `while let Some(batch) = stream.next()` loop of
`parquet_stream_to_bytes`: each stream item is a `Result<RecordBatch>`; a
failed item aborts with `ReadingStream`, a failed `writer.write(&batch)`
with `WritingParquetToMemory`. -/
def drainStream (lib : ParquetLib) :
    List (Except Unit Nat) → Except StorageError Unit
  | [] => .ok ()
  | .error _ :: _ => .error .readingStream
  | .ok b :: rest =>
    if lib.write_ok b then drainStream lib rest
    else .error .writingParquetToMemory

/-- `Storage::parquet_stream_to_bytes` (storage.rs): builds the writer
properties carrying exactly `writerKeyValueMetadata metadata`, opens the
writer (`OpeningParquetWriter` on failure), drains the stream, closes the
writer (`ClosingParquetWriter`), then extracts the in-memory buffer
(`WritingToMemWriter`). -/
def parquet_stream_to_bytes (lib : ParquetLib)
    (stream : List (Except Unit Nat)) (metadata : IoxMetadata) :
    Except StorageError (List Nat) :=
  let _props := writerKeyValueMetadata metadata
  if lib.open_ok then
    match drainStream lib stream with
    | .error e => .error e
    | .ok () =>
      if lib.close_ok then
        match lib.into_inner with
        | some data => .ok data
        | none => .error .writingToMemWriter
      else .error .closingParquetWriter
  else .error .openingParquetWriter

/-- The object-store contents: insertion-ordered list of `(path, bytes)`
objects put so far. -/
abbrev ObjectStoreState := List (DirsAndFileName × List Nat)

/-- `Storage::to_object_store` (storage.rs): a single `put` of the byte
vector at the given path; `putOk` is the outcome of the object store's
`put`, whose failure is `WritingToObjectStore` and leaves the store
unchanged. -/
def to_object_store (putOk : Bool) (store : ObjectStoreState)
    (data : List Nat) (file_name : DirsAndFileName) :
    Except StorageError Unit × ObjectStoreState :=
  if putOk then (.ok (), store ++ [(file_name, data)])
  else (.error .writingToObjectStore, store)

theorem to_object_store_true (store : ObjectStoreState) (data : List Nat)
    (p : DirsAndFileName) :
    to_object_store true store data p = (.ok (), store ++ [(p, data)]) := rfl

theorem to_object_store_false (store : ObjectStoreState) (data : List Nat)
    (p : DirsAndFileName) :
    to_object_store false store data p =
      (.error .writingToObjectStore, store) := rfl

/-- `Storage::write_to_object_store` (storage.rs): computes the path with
`location`, serializes the whole stream with `parquet_stream_to_bytes`,
parses the footer metadata from the buffer
(`read_parquet_metadata_from_file`, an external collaborator abstracted as
`mdParse`, its failure mapped to `ExtractingMetadataFailure`), and only then
puts the buffer to the object store, returning the path and the parsed
metadata. The second component is the object store after the call. -/
def write_to_object_store (st : Storage) (lib : ParquetLib)
    (mdParse : List Nat → Except Unit Nat) (putOk : Bool)
    (store : ObjectStoreState) (partition_key : String) (chunk_id : Nat)
    (table_name : String) (stream : List (Except Unit Nat))
    (metadata : IoxMetadata) :
    Except StorageError (DirsAndFileName × Nat) × ObjectStoreState :=
  match parquet_stream_to_bytes lib stream metadata with
  | .error e => (.error e, store)
  | .ok data =>
    match mdParse data with
    | .error _ => (.error .extractingMetadataFailure, store)
    | .ok md =>
      match to_object_store putOk store data
          (st.location partition_key chunk_id table_name) with
      | (.error e, store2) => (.error e, store2)
      | (.ok _, store2) =>
        (.ok (st.location partition_key chunk_id table_name, md), store2)

/-- C8 (writer atomicity): `write_to_object_store` uploads only after the
stream is fully drained, the writer closed, the buffer extracted and the
footer metadata parsed. On any error the object store is unchanged — no
partial file is ever left — and on success the store gains exactly one
object: the full buffer at the chunk's `location`, every prior step having
succeeded. -/
theorem writer_atomicity (st : Storage) (lib : ParquetLib)
    (mdParse : List Nat → Except Unit Nat) (putOk : Bool)
    (store : ObjectStoreState) (pk : String) (cid : Nat) (tn : String)
    (stream : List (Except Unit Nat)) (metadata : IoxMetadata) :
    (∀ e, (write_to_object_store st lib mdParse putOk store pk cid tn stream
        metadata).1 = .error e →
      (write_to_object_store st lib mdParse putOk store pk cid tn stream
        metadata).2 = store) ∧
    (∀ p md, (write_to_object_store st lib mdParse putOk store pk cid tn
        stream metadata).1 = .ok (p, md) →
      ∃ data, parquet_stream_to_bytes lib stream metadata =
          Except.ok data ∧
        mdParse data = Except.ok md ∧ putOk = true ∧
        p = st.location pk cid tn ∧
        (write_to_object_store st lib mdParse putOk store pk cid tn stream
          metadata).2 = store ++ [(p, data)]) := by
  cases hb : parquet_stream_to_bytes lib stream metadata with
  | error e0 =>
    simp only [write_to_object_store, hb]
    exact ⟨fun e he => trivial, fun p md hok => Except.noConfusion hok⟩
  | ok data =>
    cases hm : mdParse data with
    | error u =>
      simp only [write_to_object_store, hb, hm]
      exact ⟨fun e he => trivial, fun p md hok => Except.noConfusion hok⟩
    | ok md0 =>
      cases hp : putOk with
      | false =>
        simp only [write_to_object_store, hb, hm, to_object_store_false]
        exact ⟨fun e he => trivial, fun p md hok => Except.noConfusion hok⟩
      | true =>
        simp only [write_to_object_store, hb, hm, to_object_store_true]
        constructor
        · intro e he
          exact Except.noConfusion he
        · intro p md hok
          have h2 : Except.ok (ε := StorageError)
              (st.location pk cid tn, md0) = Except.ok (p, md) := hok
          injection h2 with h3
          injection h3 with h4 h5
          subst h4
          subst h5
          exact ⟨data, rfl, hm, trivial, rfl, rfl⟩

def stWit : Storage := ⟨1, "db"⟩

def libOk : ParquetLib := ⟨true, fun _ => true, true, some [7, 8]⟩

def mdLen (data : List Nat) : Except Unit Nat := Except.ok data.length

theorem writer_atomicity_witness :
    (write_to_object_store stWit libOk mdLen false [(⟨[], none⟩, [9])] "p" 5
        "t" [Except.ok 1] ⟨3, 4⟩).2 = [(⟨[], none⟩, [9])] ∧
    (∃ data, parquet_stream_to_bytes libOk [Except.ok 1] ⟨3, 4⟩ =
        Except.ok data ∧
      mdLen data = Except.ok 2 ∧ true = true ∧
      stWit.location "p" 5 "t" = stWit.location "p" 5 "t" ∧
      (write_to_object_store stWit libOk mdLen true [] "p" 5 "t"
        [Except.ok 1] ⟨3, 4⟩).2 =
        [] ++ [(stWit.location "p" 5 "t", data)]) :=
  ⟨(writer_atomicity stWit libOk mdLen false [(⟨[], none⟩, [9])] "p" 5 "t"
      [Except.ok 1] ⟨3, 4⟩).1 .writingToObjectStore (by decide),
   (writer_atomicity stWit libOk mdLen true [] "p" 5 "t" [Except.ok 1]
      ⟨3, 4⟩).2 (stWit.location "p" 5 "t") 2 (by decide)⟩
